import Mathlib

/-!
# Composite-claim soundness checker: a verification development

This file embeds the composite-claim soundness checker of the SDK (the
rule engine and proof checker operating on RDF-style claim graphs) and
proves properties of it.  The core (`src/utils/cd.js` and
`src/utils/claimgraph.js`) is not among the provided sources — only its
unit tests (`src/tests/unit/claim-deduction.test.js`) and the DID module
(`src/modules/did.js`) are — so the rule engine, validator, translator
and soundness driver are modelled from the specification (spec.md §3–§4,
§6–§8), faithful to its words, and checked against the concrete
expectations recorded in the unit tests.  The DID identifier functions
are translated directly from `src/modules/did.js`.
-/

set_option maxRecDepth 4000

namespace ClaimDeduction

/-! ## Terms, triples, claim graphs (spec §3)

Modelled from the spec: `Term` is a tagged variant with cases
`Iri(string)`, `Blank(string)` and
`Literal { value, datatype, language? }`; two terms are equal iff their
variants match and payloads are byte-equal. -/

inductive Term where
  | iri : String → Term
  | blank : String → Term
  | literal : String → String → Option String → Term
deriving DecidableEq, Repr

/-- Modelled from the spec: a `Triple` is an ordered
`(subject, predicate, object)` of terms. -/
structure Triple where
  s : Term
  p : Term
  o : Term
deriving DecidableEq, Repr

/-- Modelled from the spec: a `ClaimGraph` is a set of triples; we keep
it as a list with set semantics (membership-based, deduplicated on
insertion). -/
abbrev ClaimGraph := List Triple

/-- `cg_contains(cg, triple) → bool` — membership (spec §4.1). -/
def cgContains (cg : ClaimGraph) (t : Triple) : Bool :=
  cg.any (fun u => decide (u = t))

/-- Set-style insertion: duplicate triples collapse to a single element
(spec §3: "Multisets collapse to sets"). -/
def addTriple (cg : ClaimGraph) (t : Triple) : ClaimGraph :=
  if cgContains cg t then cg else cg ++ [t]

/-- Add every triple of `l` to `cg`, deduplicating. -/
def addAll (cg : ClaimGraph) (l : List Triple) : ClaimGraph :=
  l.foldl addTriple cg

theorem cgContains_iff (cg : ClaimGraph) (t : Triple) :
    cgContains cg t = true ↔ t ∈ cg := by
  simp only [cgContains, List.any_eq_true, decide_eq_true_eq]
  constructor
  · rintro ⟨u, hu, rfl⟩; exact hu
  · intro h; exact ⟨t, h, rfl⟩

theorem mem_addTriple (cg : ClaimGraph) (t u : Triple) :
    u ∈ addTriple cg t ↔ u ∈ cg ∨ u = t := by
  unfold addTriple
  by_cases h : cgContains cg t = true
  · rw [if_pos h]
    constructor
    · exact Or.inl
    · rintro (hu | rfl)
      · exact hu
      · exact (cgContains_iff cg u).mp h
  · rw [if_neg h]
    simp [List.mem_append]

theorem addTriple_shape (cg : ClaimGraph) (t : Triple) :
    ∃ ext, addTriple cg t = cg ++ ext := by
  unfold addTriple
  by_cases h : cgContains cg t = true
  · exact ⟨[], by rw [if_pos h, List.append_nil]⟩
  · exact ⟨[t], by rw [if_neg h]⟩

theorem addTriple_cases (cg : ClaimGraph) (t : Triple) :
    addTriple cg t = cg ∨ addTriple cg t = cg ++ [t] := by
  unfold addTriple
  by_cases hc : cgContains cg t = true
  · rw [if_pos hc]; exact Or.inl rfl
  · rw [if_neg hc]; exact Or.inr rfl

theorem addAll_shape (cg : ClaimGraph) (l : List Triple) :
    ∃ ext, addAll cg l = cg ++ ext ∧ ∀ t ∈ ext, t ∈ l := by
  induction l generalizing cg with
  | nil => exact ⟨[], by simp [addAll], by simp⟩
  | cons a l ih =>
    obtain ⟨e2, he2, he2m⟩ := ih (addTriple cg a)
    have hfold : addAll cg (a :: l) = addAll (addTriple cg a) l := by
      simp [addAll]
    rcases addTriple_cases cg a with h1 | h1
    · refine ⟨e2, ?_, ?_⟩
      · rw [hfold, he2, h1]
      · intro t ht; exact List.mem_cons_of_mem a (he2m t ht)
    · refine ⟨a :: e2, ?_, ?_⟩
      · rw [hfold, he2, h1, List.append_assoc]; rfl
      · intro t ht
        rcases List.mem_cons.mp ht with rfl | h
        · exact List.mem_cons_self t l
        · exact List.mem_cons_of_mem a (he2m t h)

theorem mem_addAll (cg : ClaimGraph) (l : List Triple) (u : Triple) :
    u ∈ addAll cg l ↔ u ∈ cg ∨ u ∈ l := by
  induction l generalizing cg with
  | nil => simp [addAll]
  | cons a l ih =>
    simp only [addAll, List.foldl_cons] at *
    rw [ih (addTriple cg a), mem_addTriple]
    simp only [List.mem_cons]
    tauto

/-! ## Decimal blank-node labels

The translator and the claim-graph union generate fresh blank nodes
labeled `_:b0`, `_:b1`, … (the labels recorded by the unit tests).  We
build the decimal printer from first principles together with a value
function so that the labels are provably injective. -/

/-- The decimal digit character for `d < 10`. -/
def digitChar (d : Nat) : Char := Char.ofNat (48 + d)

/-- Decimal digits of `n`, most significant first (`fuel`-bounded; the
fuel `n` always suffices since `n / 10 < n` for `n ≥ 10`). -/
def decAux : Nat → Nat → List Char
  | 0, n => [digitChar n]
  | fuel + 1, n => if n < 10 then [digitChar n] else decAux fuel (n / 10) ++ [digitChar (n % 10)]

/-- Numeric value of a digit string, used to prove the printer injective. -/
def decVal (l : List Char) : Nat :=
  l.foldl (fun acc c => acc * 10 + (c.toNat - 48)) 0

theorem decVal_append (l1 l2 : List Char) :
    decVal (l1 ++ l2) =
      l2.foldl (fun acc c => acc * 10 + (c.toNat - 48)) (decVal l1) := by
  simp [decVal, List.foldl_append]

theorem digitChar_toNat (d : Nat) (h : d < 10) : (digitChar d).toNat = 48 + d := by
  interval_cases d <;> rfl

theorem decVal_decAux (fuel n : Nat) (h : n ≤ fuel ∨ n < 10) :
    decVal (decAux fuel n) = n := by
  induction fuel using Nat.strong_induction_on generalizing n with
  | _ fuel ih =>
    match fuel with
    | 0 =>
      have hn : n < 10 := by
        rcases h with h | h
        · omega
        · exact h
      simp [decAux, decVal, digitChar_toNat n hn]
    | fuel + 1 =>
      by_cases hn : n < 10
      · simp [decAux, if_pos hn, decVal, digitChar_toNat n hn]
      · rw [decAux, if_neg hn, decVal_append]
        have hdiv : n / 10 ≤ fuel := by
          rcases h with h | h
          · have := Nat.div_lt_self (by omega : 0 < n) (by omega : 1 < 10)
            omega
          · omega
        have := ih fuel (Nat.lt_succ_self fuel) (n / 10) (Or.inl hdiv)
        rw [this]
        simp only [List.foldl_cons, List.foldl_nil]
        rw [digitChar_toNat (n % 10) (Nat.mod_lt n (by omega))]
        omega

/-- The blank-node label with sequence number `n`: the string `_:b<n>`. -/
def blankName (n : Nat) : String := String.mk ('_' :: ':' :: 'b' :: decAux n n)

/-- Numeric index recovered from a blank label of the form `_:b<n>`
(meaningless on other strings, which is harmless where it is used). -/
def idxOf (s : String) : Nat := decVal (s.data.drop 3)

theorem idxOf_blankName (n : Nat) : idxOf (blankName n) = n := by
  simp only [idxOf, blankName, List.drop]
  exact decVal_decAux n n (Or.inl (Nat.le_refl n))

theorem blankName_inj (m n : Nat) (h : blankName m = blankName n) : m = n := by
  have := congrArg idxOf h
  rwa [idxOf_blankName, idxOf_blankName] at this

/-! ## Rule model (spec §3, §4.3)

Modelled from the spec: an `Atom` is a triple template whose slots are
each `Bound(Term)` or `Unbound(name)`; a `Rule` is
`{ if_all: [Atom], then: [Atom] }`. -/

inductive Slot where
  | bound : Term → Slot
  | unbound : String → Slot
deriving DecidableEq, Repr

structure Atom where
  s : Slot
  p : Slot
  o : Slot
deriving DecidableEq, Repr

/-- Modelled from the spec: `Rule = { if_all, then }` (the `then` field
is written `then_` because `then` is a Lean keyword). -/
structure Rule where
  if_all : List Atom
  then_ : List Atom
deriving DecidableEq, Repr

/-- A substitution: a partial map from rule-variable names to terms. -/
abbrev Subst := List (String × Term)

/-- Lookup in a substitution (first binding wins). -/
def slook : Subst → String → Option Term
  | [], _ => none
  | (k, v) :: rest, x => if k = x then some v else slook rest x

/-- `apply_subst` on one slot: a bound slot is its term, an unbound slot
is looked up (spec §4.3). -/
def applySlot (σ : Subst) : Slot → Option Term
  | .bound t => some t
  | .unbound v => slook σ v

/-- `apply_subst(atom, subst)`: the instantiated triple, or `none` if an
unbound variable remains (spec §4.3, §4.5 step "fully ground"). -/
def applyAtom (σ : Subst) (a : Atom) : Option Triple := do
  let s ← applySlot σ a.s
  let p ← applySlot σ a.p
  let o ← applySlot σ a.o
  pure ⟨s, p, o⟩

/-- `unify` on one slot (spec §4.3): a `Bound(t)` must equal the
triple's slot; an `Unbound(v)` either extends the substitution or must
match the existing binding. -/
def unifySlot (σ : Subst) (sl : Slot) (t : Term) : Option Subst :=
  match sl with
  | .bound u => if u = t then some σ else none
  | .unbound v =>
    match slook σ v with
    | some w => if w = t then some σ else none
    | none => some ((v, t) :: σ)

/-- `unify(atom, triple, subst) → subst | ⊥` (spec §4.3). -/
def unifyAtom (σ : Subst) (a : Atom) (t : Triple) : Option Subst := do
  let σ1 ← unifySlot σ a.s t.s
  let σ2 ← unifySlot σ1 a.p t.p
  unifySlot σ2 a.o t.o

/-- Variable names occurring in a slot. -/
def slotVars : Slot → List String
  | .bound _ => []
  | .unbound v => [v]

/-- Variable names occurring in an atom. -/
def atomVars (a : Atom) : List String := slotVars a.s ++ slotVars a.p ++ slotVars a.o

/-- First-occurrence deduplication (`seen` accumulates what was kept). -/
def dedupAux : List String → List String → List String
  | _, [] => []
  | seen, v :: rest =>
    if v ∈ seen then dedupAux seen rest else v :: dedupAux (v :: seen) rest

/-- Canonical variable order of a rule (spec §4.4): variables enumerated
in first-occurrence order across `if_all` then `then`. -/
def ruleVars (r : Rule) : List String :=
  dedupAux [] ((r.if_all ++ r.then_).foldr (fun a acc => atomVars a ++ acc) [])

theorem mem_dedupAux (seen l : List String) (v : String) :
    v ∈ dedupAux seen l ↔ v ∈ l ∧ v ∉ seen := by
  induction l generalizing seen with
  | nil => simp [dedupAux]
  | cons a l ih =>
    unfold dedupAux
    by_cases h : a ∈ seen
    · rw [if_pos h, ih seen]
      simp only [List.mem_cons]
      constructor
      · rintro ⟨h1, h2⟩; exact ⟨Or.inr h1, h2⟩
      · rintro ⟨h1 | h1, h2⟩
        · subst h1; exact absurd h h2
        · exact ⟨h1, h2⟩
    · rw [if_neg h]
      simp only [List.mem_cons, ih (a :: seen)]
      constructor
      · rintro (rfl | ⟨h1, h2⟩)
        · exact ⟨Or.inl rfl, h⟩
        · exact ⟨Or.inr h1, fun hv => h2 (Or.inr hv)⟩
      · rintro ⟨h1 | h1, h2⟩
        · exact Or.inl h1
        · by_cases hva : v = a
          · exact Or.inl hva
          · exact Or.inr ⟨h1, fun hv => hv.elim hva h2⟩

theorem mem_ruleVars (r : Rule) (v : String) :
    v ∈ ruleVars r ↔ ∃ a ∈ r.if_all ++ r.then_, v ∈ atomVars a := by
  unfold ruleVars
  rw [mem_dedupAux]
  simp only [List.not_mem_nil, not_false_iff, and_true]
  induction (r.if_all ++ r.then_) with
  | nil => simp
  | cons a l ih =>
    simp only [List.foldr_cons, List.mem_append, List.mem_cons, ih]
    constructor
    · rintro (h | ⟨b, hb, hv⟩)
      · exact ⟨a, Or.inl rfl, h⟩
      · exact ⟨b, Or.inr hb, hv⟩
    · rintro ⟨b, hb | hb, hv⟩
      · subst hb; exact Or.inl hv
      · exact Or.inr ⟨b, hb, hv⟩

/-! ## Option-valued map over lists -/

/-- Map `f` over a list, failing if `f` fails anywhere (the validator's
"every atom must fully ground" check, spec §4.5). -/
def omap (f : α → Option β) : List α → Option (List β)
  | [] => some []
  | a :: l =>
    match f a, omap f l with
    | some b, some bs => some (b :: bs)
    | _, _ => none

theorem omap_length (f : α → Option β) (l : List α) (l' : List β)
    (h : omap f l = some l') : l'.length = l.length := by
  induction l generalizing l' with
  | nil => simp [omap] at h; subst h; rfl
  | cons a l ih =>
    unfold omap at h
    cases hfa : f a with
    | none => rw [hfa] at h; exact absurd h (by simp)
    | some b =>
      rw [hfa] at h
      cases hol : omap f l with
      | none => rw [hol] at h; exact absurd h (by simp)
      | some bs =>
        rw [hol] at h
        simp only [Option.some.injEq] at h
        subst h
        simp [ih bs hol]

theorem omap_congr (f g : α → Option β) (l : List α)
    (h : ∀ a ∈ l, f a = g a) : omap f l = omap g l := by
  induction l with
  | nil => rfl
  | cons a l ih =>
    unfold omap
    rw [h a (List.mem_cons_self a l), ih (fun b hb => h b (List.mem_cons_of_mem a hb))]

theorem omap_of_forall (f : α → Option β) (P : β → Prop) (l : List α)
    (h : ∀ a ∈ l, ∃ b, f a = some b ∧ P b) :
    ∃ l', omap f l = some l' ∧ ∀ b ∈ l', P b := by
  induction l with
  | nil => exact ⟨[], rfl, by simp⟩
  | cons a l ih =>
    obtain ⟨b, hb, hPb⟩ := h a (List.mem_cons_self a l)
    obtain ⟨bs, hbs, hPbs⟩ := ih (fun c hc => h c (List.mem_cons_of_mem a hc))
    refine ⟨b :: bs, ?_, ?_⟩
    · unfold omap; rw [hb, hbs]
    · intro c hc
      rcases List.mem_cons.mp hc with rfl | hc
      · exact hPb
      · exact hPbs c hc

theorem mem_of_omap (f : α → Option β) (l : List α) (l' : List β)
    (h : omap f l = some l') (b : β) (hb : b ∈ l') :
    ∃ a ∈ l, f a = some b := by
  induction l generalizing l' with
  | nil => simp [omap] at h; subst h; cases hb
  | cons a l ih =>
    unfold omap at h
    cases hfa : f a with
    | none => rw [hfa] at h; exact absurd h (by simp)
    | some c =>
      rw [hfa] at h
      cases hol : omap f l with
      | none => rw [hol] at h; exact absurd h (by simp)
      | some bs =>
        rw [hol] at h
        simp only [Option.some.injEq] at h
        subst h
        rcases List.mem_cons.mp hb with rfl | hb
        · exact ⟨a, List.mem_cons_self a l, hfa⟩
        · obtain ⟨a', ha', hfa'⟩ := ih bs hol hb
          exact ⟨a', List.mem_cons_of_mem a ha', hfa'⟩

/-- Equality of `Except` results is decidable when both components are. -/
instance exceptDecEq {ε α : Type} [DecidableEq ε] [DecidableEq α] :
    DecidableEq (Except ε α) := fun a b =>
  match a, b with
  | .error e, .error f => decidable_of_iff (e = f) (by simp)
  | .error _, .ok _ => isFalse (by simp)
  | .ok _, .error _ => isFalse (by simp)
  | .ok x, .ok y => decidable_of_iff (x = y) (by simp)

/-! ## Errors (spec §7) -/

/-- Error kinds surfaced by the core (spec §7).  `verificationFailed`
wraps the suite-level error string. -/
inductive CDError where
  | verificationFailed : String → CDError
  | invalidProof : String → CDError
  | unverifiedAssumption : Triple → CDError
  | cannotProve : CDError
deriving DecidableEq, Repr

/-! ## Proof steps and the validator (spec §3, §4.5)

Modelled from the spec: `ProofStep = { rule_index, instantiations }`,
positional against the canonical variable order of the referenced rule;
`validate(rules, proof)` replays the proof without the premise set and
reports the assumed and implied atomic claims. -/

structure ProofStep where
  rule_index : Nat
  instantiations : List Term
deriving DecidableEq, Repr

/-- Validator state: the `(assumed, implied)` claim-graph pair. -/
abbrev VState := ClaimGraph × ClaimGraph

/-- For each `b ∈ B`: if `b ∉ implied`, add `b` to `assumed`
(spec §4.5 step 2). -/
def addAssumed (implied : ClaimGraph) (assumed : ClaimGraph) (B : List Triple) : ClaimGraph :=
  B.foldl (fun A b => if cgContains implied b then A else addTriple A b) assumed

theorem mem_addAssumed (implied assumed : ClaimGraph) (B : List Triple) (a : Triple) :
    a ∈ addAssumed implied assumed B ↔ a ∈ assumed ∨ (a ∈ B ∧ a ∉ implied) := by
  induction B generalizing assumed with
  | nil => simp [addAssumed]
  | cons b B ih =>
    simp only [addAssumed, List.foldl_cons] at *
    by_cases hb : cgContains implied b = true
    · rw [if_pos hb, ih]
      simp only [List.mem_cons]
      constructor
      · rintro (h | ⟨h1, h2⟩)
        · exact Or.inl h
        · exact Or.inr ⟨Or.inr h1, h2⟩
      · rintro (h | ⟨rfl | h1, h2⟩)
        · exact Or.inl h
        · exact absurd ((cgContains_iff implied a).mp hb) h2
        · exact Or.inr ⟨h1, h2⟩
    · rw [if_neg hb, ih]
      simp only [mem_addTriple, List.mem_cons]
      have hbni : b ∉ implied := fun hmem => hb ((cgContains_iff implied b).mpr hmem)
      constructor
      · rintro (⟨h | rfl⟩ | ⟨h1, h2⟩)
        · exact Or.inl h
        · exact Or.inr ⟨Or.inl rfl, hbni⟩
        · exact Or.inr ⟨Or.inr h1, h2⟩
      · rintro (h | ⟨rfl | h1, h2⟩)
        · exact Or.inl (Or.inl h)
        · exact Or.inl (Or.inr rfl)
        · exact Or.inr ⟨h1, h2⟩

/-- One validator step (spec §4.5 step 2): look up the rule, check the
instantiation arity against the canonical variable order, ground body
and head, accumulate assumed and implied. -/
def validateStep (rules : List Rule) (st : VState) (s : ProofStep) : Except CDError VState :=
  match rules.get? s.rule_index with
  | none => .error (.invalidProof "BadRuleIndex")
  | some r =>
    if s.instantiations.length = (ruleVars r).length then
      let σ : Subst := List.zip (ruleVars r) s.instantiations
      match omap (applyAtom σ) r.if_all, omap (applyAtom σ) r.then_ with
      | some B, some H => .ok (addAssumed st.2 st.1 B, addAll st.2 H)
      | _, _ => .error (.invalidProof "BadRuleApplication")
    else .error (.invalidProof "BadRuleApplication")

/-- Replay a proof from a given state. -/
def validateFrom (rules : List Rule) (st : VState) : List ProofStep → Except CDError VState
  | [] => .ok st
  | s :: rest =>
    match validateStep rules st s with
    | .error e => .error e
    | .ok st' => validateFrom rules st' rest

/-- `validate(rules, proof) → {assumed, implied}` (spec §4.5).  Named
`validateh` after the symbol exported to the unit tests. -/
def validateh (rules : List Rule) (proof : List ProofStep) : Except CDError VState :=
  validateFrom rules ([], []) proof

theorem validateFrom_append (rules : List Rule) (st : VState) (xs ys : List ProofStep) :
    validateFrom rules st (xs ++ ys) =
      match validateFrom rules st xs with
      | .error e => .error e
      | .ok st' => validateFrom rules st' ys := by
  induction xs generalizing st with
  | nil => simp [validateFrom]
  | cons s xs ih =>
    simp only [List.cons_append, validateFrom]
    cases validateStep rules st s with
    | error e => rfl
    | ok st' => exact ih st'

/-! ## The prover (spec §4.4)

Modelled from the spec: `prove(premises, goals, rules)` forward-chains
from the premises under the rules until fixpoint or until all goals are
known, logging `{rule_index, instantiations}` steps with instantiations
in the canonical variable order. -/

/-- All consistent substitutions unifying the body atoms, in order,
against triples of `K` and extending `σ` (spec §4.4 step 2). -/
def matchBody (K : ClaimGraph) : List Atom → Subst → List Subst
  | [], σ => [σ]
  | a :: rest, σ =>
    (K.filterMap (unifyAtom σ a)).flatMap (matchBody K rest)

/-- The instantiation list of `σ` in the canonical variable order of
`r`; `none` when `σ` is not complete over `vars(r)` (spec §4.4). -/
def instOf (r : Rule) (σ : Subst) : Option (List Term) :=
  omap (slook σ) (ruleVars r)

/-- Fire one rule instance (spec §4.4 step 2): if the substitution is
complete and the instantiated head is not already contained in `K`, add
it and log the step. -/
def fireOne (i : Nat) (r : Rule) (KL : ClaimGraph × List ProofStep) (σ : Subst) :
    ClaimGraph × List ProofStep :=
  match instOf r σ, omap (applyAtom σ) r.then_ with
  | some inst, some H =>
    if H.all (cgContains KL.1) then KL
    else (addAll KL.1 H, KL.2 ++ [⟨i, inst⟩])
  | _, _ => KL

/-- Apply rule `r` (at index `i`): fire every complete match of its body
against the current known set. -/
def applyRule (i : Nat) (r : Rule) (KL : ClaimGraph × List ProofStep) :
    ClaimGraph × List ProofStep :=
  (matchBody KL.1 r.if_all []).foldl (fireOne i r) KL

/-- One saturation round over all rules (with running rule index). -/
def roundGo (rules : List Rule) (i : Nat) (KL : ClaimGraph × List ProofStep) :
    ClaimGraph × List ProofStep :=
  match rules with
  | [] => KL
  | r :: rest => roundGo rest (i + 1) (applyRule i r KL)

/-- Saturation: repeat rounds until fixpoint, with explicit fuel (the
Herbrand universe over the premises and rule literals is finite, spec
§4.4 "Termination", so a fuel of `|universe|³ + 1` rounds reaches the
fixpoint). -/
def satLoop (rules : List Rule) : Nat → ClaimGraph → ClaimGraph
  | 0, K => K
  | n + 1, K =>
    let K' := (roundGo rules 0 (K, [])).1
    if K'.length = K.length then K else satLoop rules n K'

/-- The prover's main loop: stop as soon as all goals are known,
otherwise run a round; fail with `CannotProve` at fixpoint (spec §4.4
steps 2–3). -/
def proveLoop (rules : List Rule) (goals : List Triple) :
    Nat → ClaimGraph → List ProofStep → Except CDError (List ProofStep)
  | 0, K, L => if goals.all (cgContains K) then .ok L else .error .cannotProve
  | n + 1, K, L =>
    if goals.all (cgContains K) then .ok L
    else
      let KL := roundGo rules 0 (K, L)
      if KL.1.length = K.length then .error .cannotProve
      else proveLoop rules goals n KL.1 KL.2

/-- Terms of a triple. -/
def tripleTerms (t : Triple) : List Term := [t.s, t.p, t.o]

/-- Terms of a claim graph. -/
def cgTerms (cg : ClaimGraph) : List Term := cg.flatMap tripleTerms

/-- Terms bound in a slot. -/
def slotTerms : Slot → List Term
  | .bound t => [t]
  | .unbound _ => []

/-- Terms bound in the atoms of a rule list. -/
def rulesTerms (rules : List Rule) : List Term :=
  rules.flatMap (fun r =>
    (r.if_all ++ r.then_).flatMap (fun a => slotTerms a.s ++ slotTerms a.p ++ slotTerms a.o))

/-- Round fuel: every triple ever derived is built from terms of the
premises and of the rule literals, so at most `n³` distinct triples
exist over the `n` such terms and a non-fixpoint round adds at least
one; `n³ + 1` rounds therefore reach the fixpoint (spec §4.4
"Termination"). -/
def fuelBound (premises : ClaimGraph) (rules : List Rule) : Nat :=
  let n := (cgTerms premises ++ rulesTerms rules).length
  n * n * n + 1

/-- The saturated fact set `saturate(F, R)` (spec §8, "Round-trip"). -/
def saturate (premises : ClaimGraph) (rules : List Rule) : ClaimGraph :=
  satLoop rules (fuelBound premises rules) premises

/-- `prove(premises, goals, rules) → Proof` (spec §4.4).  Named `proveh`
after the symbol exported to the unit tests. -/
def proveh (premises : ClaimGraph) (goals : List Triple) (rules : List Rule) :
    Except CDError (List ProofStep) :=
  proveLoop rules goals (fuelBound premises rules) premises []

/-! ## Blank-node bookkeeping and claim-graph union (spec §4.1)

Modelled from the spec: `cg_union(a, b)` is set union with the blanks of
`b` renamed to fresh labels before union, so that independently
translated credentials cannot share a blank-node label. -/

/-- Blank labels of a term. -/
def termBlanks : Term → List String
  | .blank s => [s]
  | _ => []

/-- Blank labels of a triple. -/
def tripleBlanks (t : Triple) : List String :=
  termBlanks t.s ++ termBlanks t.p ++ termBlanks t.o

/-- Blank labels of a claim graph, in occurrence order. -/
def cgBlanks (cg : ClaimGraph) : List String := cg.flatMap tripleBlanks

/-- The next free `_:b<n>` index for a claim graph: `0` when the graph
has no blanks, otherwise one past the largest index read off its blank
labels. -/
def nextIdx (cg : ClaimGraph) : Nat :=
  match cgBlanks cg with
  | [] => 0
  | l => l.foldl (fun acc s => Nat.max acc (idxOf s)) 0 + 1

/-- Association lookup for string-keyed maps. -/
def alook : List (String × String) → String → Option String
  | [], _ => none
  | (k, v) :: rest, x => if k = x then some v else alook rest x

/-- Renaming map sending the `i`-th listed label to `_:b<n+i>`. -/
def mkRen : Nat → List String → List (String × String)
  | _, [] => []
  | n, v :: rest => (v, blankName n) :: mkRen (n + 1) rest

/-- Rename the blanks of a term along `ρ` (other terms unchanged). -/
def renameTerm (ρ : List (String × String)) : Term → Term
  | .blank s =>
    match alook ρ s with
    | some s' => .blank s'
    | none => .blank s
  | t => t

/-- Rename the blanks of a triple along `ρ`. -/
def renameTriple (ρ : List (String × String)) (t : Triple) : Triple :=
  ⟨renameTerm ρ t.s, renameTerm ρ t.p, renameTerm ρ t.o⟩

/-- The right-hand part of a union: `b` with every blank renamed to a
fresh sequential `_:b<n>` label starting past everything in `a`. -/
def renamedPart (a b : ClaimGraph) : ClaimGraph :=
  b.map (renameTriple (mkRen (nextIdx a) (dedupAux [] (cgBlanks b))))

/-- `cg_union(a, b) → ClaimGraph` — set union; blanks in `b` are renamed
to fresh labels before union (spec §4.1). -/
def cgUnion (a b : ClaimGraph) : ClaimGraph := a ++ renamedPart a b

/-! ## Presentation-to-ClaimGraph translator (spec §4.2)

Modelled from the spec: the input presentation has already passed
JSON-LD expansion and cryptographic verification outside the core, so a
credential enters the core as its issuer IRI together with the RDF
triples of its asserted content (the credential's own proof block and
the presentation wrapper excluded by the expansion stage). -/

structure Credential where
  issuer : Term
  content : List Triple
deriving DecidableEq, Repr

/-- `https://www.dock.io/rdf2020#claimsV1` (spec §6, Reserved IRIs). -/
def claimsV1 : Term := .iri "https://www.dock.io/rdf2020#claimsV1"

/-- `rdf:subject`. -/
def rdfSubject : Term := .iri "http://www.w3.org/1999/02/22-rdf-syntax-ns#subject"

/-- `rdf:predicate`. -/
def rdfPredicate : Term := .iri "http://www.w3.org/1999/02/22-rdf-syntax-ns#predicate"

/-- `rdf:object`. -/
def rdfObject : Term := .iri "http://www.w3.org/1999/02/22-rdf-syntax-ns#object"

/-- The explicit-ethos reification of one asserted triple (spec §4.2):
`(I, claimsV1, b)`, `(b, rdf:subject, s)`, `(b, rdf:predicate, p)`,
`(b, rdf:object, o)` with `b` a fresh blank node. -/
def reifyTriple (b : Term) (issuer : Term) (t : Triple) : List Triple :=
  [⟨issuer, claimsV1, b⟩, ⟨b, rdfSubject, t.s⟩, ⟨b, rdfPredicate, t.p⟩, ⟨b, rdfObject, t.o⟩]

/-- Explicit-ethos claim graph of one credential, reification blanks
numbered from `n`. -/
def translateCred (issuer : Term) : Nat → List Triple → List Triple
  | _, [] => []
  | n, t :: rest => reifyTriple (.blank (blankName n)) issuer t ++ translateCred issuer (n + 1) rest

/-- Per-credential explicit-ethos graph, blanks numbered from `0`. -/
def credEE (c : Credential) : ClaimGraph := translateCred c.issuer 0 c.content

/-- The translator (spec §4.2): the union of the per-credential graphs,
merged with fresh-blank renaming per §4.1.  Named after the symbol
exported to the unit tests. -/
def presentationToEEClaimGraph (creds : List Credential) : ClaimGraph :=
  creds.foldl (fun acc c => cgUnion acc (credEE c)) []

/-! ## Soundness driver (spec §4.6)

Modelled from the spec: the external `verify` and `expand` oracles run
before the core, so a presentation enters the core as the outcome of
verification, the expanded credentials, and the proof attached under
`https://www.dock.io/rdf2020#logicV1` (absent ⇒ empty proof). -/

structure Presentation where
  verified : Bool
  verifyError : String
  credentials : List Credential
  logic : Option (List ProofStep)
deriving DecidableEq, Repr

/-- Steps 3–7 of `check_soundness` (spec §4.6): translate, validate the
attached proof, reject unverified assumptions, return `F ∪ I`.  Named
after the symbol exported to the unit tests. -/
def acceptCompositeClaims (creds : List Credential) (proof : List ProofStep)
    (rules : List Rule) : Except CDError ClaimGraph :=
  let F := presentationToEEClaimGraph creds
  match validateh rules proof with
  | .error e => .error e
  | .ok (A, I) =>
    match A.find? (fun a => !(cgContains F a)) with
    | some a => .error (.unverifiedAssumption a)
    | none => .ok (addAll F I)

/-- `check_soundness(presentation, rules) → ClaimGraph` (spec §4.6):
verification first, then expansion/translation and proof checking. -/
def checkSoundness (p : Presentation) (rules : List Rule) : Except CDError ClaimGraph :=
  if p.verified then acceptCompositeClaims p.credentials (p.logic.getD []) rules
  else .error (.verificationFailed p.verifyError)

/-- The holder-side mirror (spec §4.6): translate the expanded
presentation to the premise set and run the prover. -/
def proveCompositeClaims (creds : List Credential) (goals : List Triple)
    (rules : List Rule) : Except CDError (List ProofStep) :=
  proveh (presentationToEEClaimGraph creds) goals rules


end ClaimDeduction

namespace DockDID

/-! ## DID identifier handling, from `src/modules/did.js` -/

/-- `did:dock:` (src/modules/did.js line 6). -/
def DockDIDQualifier : String := "did:dock:"

/-- Byte size of the Dock DID identifier (src/modules/did.js line 7). -/
def DockDIDByteSize : Nat := 32

/-- Hex digit test, upper or lower case. -/
def isHexDigitChar (c : Char) : Bool :=
  (decide ('0' ≤ c) && decide (c ≤ '9')) ||
  (decide ('a' ≤ c) && decide (c ≤ 'f')) ||
  (decide ('A' ≤ c) && decide (c ≤ 'F'))

/-- Modelled from the spec: `isHexWithGivenByteSize` is imported from
`src/utils`, which is not among the sources; per the importing module's
documentation ("Check if the given identifier is 32 byte hex") it
accepts exactly the strings of the form `0x` followed by
`2 · byteSize` hexadecimal digits. -/
def isHexWithGivenByteSize (s : String) (byteSize : Nat) : Bool :=
  decide (s.data.take 2 = ['0', 'x']) &&
  (s.data.drop 2).all isHexDigitChar &&
  decide ((s.data.drop 2).length = 2 * byteSize)

/-- `validateDockDIDIdentifier` (src/modules/did.js lines 20–25): throw
unless the identifier is 32-byte hex. -/
def validateDockDIDIdentifier (identifier : String) : Except String Unit :=
  if isHexWithGivenByteSize identifier DockDIDByteSize then .ok ()
  else .error ("DID identifier must be " ++ toString DockDIDByteSize ++ " bytes")

/-- Lower-case hex digit for `d < 16`. -/
def hexDigitChar (d : Nat) : Char :=
  if d < 10 then Char.ofNat (48 + d) else Char.ofNat (87 + d)

/-- Two hex digits of one byte. -/
def byteToHex (b : Nat) : List Char :=
  [hexDigitChar (b / 16 % 16), hexDigitChar (b % 16)]

/-- `u8aToHex` from `@polkadot/util`: `0x` followed by two lower-case
hex digits per byte. -/
def u8aToHex (bytes : List Nat) : String :=
  String.mk ('0' :: 'x' :: bytes.flatMap byteToHex)

/-- Prefix test on strings (JS `String.prototype.startsWith`). -/
def strStarts (s p : String) : Bool :=
  decide (s.data.take p.data.length = p.data)

/-- `getHexIdentifierFromDID` (src/modules/did.js lines 33–57).
`decodeAddress` from `@polkadot/util-crypto` is an external oracle:
`none` models it throwing. -/
def getHexIdentifierFromDID (decodeAddress : String → Option (List Nat))
    (did : String) : Except String String :=
  if strStarts did DockDIDQualifier then
    let ss58Did := did.drop DockDIDQualifier.length
    match decodeAddress ss58Did with
    | none => .error ("Invalid SS58 DID " ++ did ++ ". decodeAddress failed")
    | some bytes =>
      let hex := u8aToHex bytes
      if hex.length = 2 + 2 * DockDIDByteSize then .ok hex
      else .error ("Invalid SS58 DID " ++ did ++ ". Error: Unexpected byte size")
  else
    match validateDockDIDIdentifier did with
    | .ok _ => .ok did
    | .error e => .error ("Invalid hexadecimal DID " ++ did ++ ". Error: " ++ e)

theorem flatMap_byteToHex_length (bytes : List Nat) :
    (bytes.flatMap byteToHex).length = 2 * bytes.length := by
  induction bytes with
  | nil => rfl
  | cons b bytes ih =>
    simp only [List.flatMap_cons, List.length_append, ih, byteToHex, List.length_cons,
      List.length_nil]
    omega

theorem hexDigitChar_isHex (d : Nat) (h : d < 16) :
    isHexDigitChar (hexDigitChar d) = true := by
  interval_cases d <;> decide

theorem u8aToHex_length (bytes : List Nat) :
    (u8aToHex bytes).length = 2 + 2 * bytes.length := by
  simp only [u8aToHex, String.length, List.length_cons, flatMap_byteToHex_length]
  omega

theorem isHex_true_iff (s : String) (n : Nat) :
    isHexWithGivenByteSize s n = true ↔
      s.data.take 2 = ['0', 'x'] ∧ (∀ c ∈ s.data.drop 2, isHexDigitChar c = true) ∧
      (s.data.drop 2).length = 2 * n := by
  unfold isHexWithGivenByteSize
  simp only [Bool.and_eq_true, decide_eq_true_eq, List.all_eq_true]
  tauto

theorem u8aToHex_isHex (bytes : List Nat) (hlen : bytes.length = DockDIDByteSize) :
    isHexWithGivenByteSize (u8aToHex bytes) DockDIDByteSize = true := by
  rw [isHex_true_iff]
  refine ⟨rfl, ?_, ?_⟩
  · intro c hc
    have hc' : c ∈ bytes.flatMap byteToHex := hc
    obtain ⟨b, _, hcb⟩ := List.mem_flatMap.mp hc'
    simp only [byteToHex, List.mem_cons, List.not_mem_nil, or_false] at hcb
    rcases hcb with rfl | rfl
    · exact hexDigitChar_isHex _ (Nat.mod_lt _ (by omega))
    · exact hexDigitChar_isHex _ (Nat.mod_lt _ (by omega))
  · show (bytes.flatMap byteToHex).length = 2 * DockDIDByteSize
    rw [flatMap_byteToHex_length, hlen]

theorem getHex_ok_isHex (decode : String → Option (List Nat)) (did s : String)
    (h : getHexIdentifierFromDID decode did = .ok s) :
    isHexWithGivenByteSize s DockDIDByteSize = true := by
  unfold getHexIdentifierFromDID at h
  by_cases hst : strStarts did DockDIDQualifier = true
  · rw [if_pos hst] at h
    dsimp only at h
    cases hdec : decode (did.drop DockDIDQualifier.length) with
    | none => rw [hdec] at h; cases h
    | some bytes =>
      rw [hdec] at h
      dsimp only at h
      by_cases hlen : (u8aToHex bytes).length = 2 + 2 * DockDIDByteSize
      · rw [if_pos hlen] at h
        cases h
        have hb : bytes.length = DockDIDByteSize := by
          have := u8aToHex_length bytes
          omega
        exact u8aToHex_isHex bytes hb
      · rw [if_neg hlen] at h; cases h
  · rw [if_neg hst] at h
    unfold validateDockDIDIdentifier at h
    by_cases hhex : isHexWithGivenByteSize did DockDIDByteSize = true
    · rw [if_pos hhex] at h
      dsimp only at h
      cases h
      exact hhex
    · rw [if_neg hhex] at h
      dsimp only at h
      cases h

theorem hex_not_dock (s : String)
    (hs : isHexWithGivenByteSize s DockDIDByteSize = true) :
    strStarts s DockDIDQualifier = false := by
  obtain ⟨htake, _, _⟩ := (isHex_true_iff s DockDIDByteSize).mp hs
  unfold strStarts
  simp only [decide_eq_false_iff_not]
  intro heq
  cases hd : s.data with
  | nil => rw [hd] at htake; cases htake
  | cons c cs =>
    rw [hd] at htake heq
    have hq : DockDIDQualifier.data = ['d', 'i', 'd', ':', 'd', 'o', 'c', 'k', ':'] := rfl
    have hql : DockDIDQualifier.data.length = 9 := rfl
    rw [hql, hq] at heq
    simp only [List.take_succ_cons, List.cons.injEq] at htake heq
    rw [htake.1] at heq
    exact absurd heq.1 (by decide)

theorem getHex_idem (decode decode' : String → Option (List Nat)) (did s : String)
    (h : getHexIdentifierFromDID decode did = .ok s) :
    getHexIdentifierFromDID decode' s = .ok s := by
  have hs := getHex_ok_isHex decode did s h
  have hnd := hex_not_dock s hs
  unfold getHexIdentifierFromDID
  rw [hnd]
  simp only [Bool.false_eq_true, if_false]
  unfold validateDockDIDIdentifier
  rw [if_pos hs]

theorem strStarts_of_data (t p : String) (rest : List Char)
    (h : t.data = p.data ++ rest) : strStarts t p = true := by
  unfold strStarts
  rw [h, List.take_left]
  exact decide_eq_true rfl

theorem getHex_error_msgs (decode : String → Option (List Nat)) (did e : String)
    (h : getHexIdentifierFromDID decode did = .error e) :
    (strStarts did DockDIDQualifier = true → strStarts e "Invalid SS58 DID " = true) ∧
    (strStarts did DockDIDQualifier = false →
      strStarts e "Invalid hexadecimal DID " = true) := by
  unfold getHexIdentifierFromDID at h
  by_cases hst : strStarts did DockDIDQualifier = true
  · rw [if_pos hst] at h
    dsimp only at h
    have hclose : ∀ tail : String,
        ("Invalid SS58 DID " ++ did ++ tail : String) = e →
        (strStarts did DockDIDQualifier = true → strStarts e "Invalid SS58 DID " = true) ∧
        (strStarts did DockDIDQualifier = false →
          strStarts e "Invalid hexadecimal DID " = true) := by
      intro tail htail
      constructor
      · intro _
        refine strStarts_of_data e _ (did.data ++ tail.data) ?_
        rw [← htail]
        simp [String.data_append, List.append_assoc]
      · intro hfalse
        rw [hst] at hfalse
        cases hfalse
    cases hdec : decode (did.drop DockDIDQualifier.length) with
    | none =>
      rw [hdec] at h
      cases h
      exact hclose ". decodeAddress failed" rfl
    | some bytes =>
      rw [hdec] at h
      dsimp only at h
      by_cases hlen : (u8aToHex bytes).length = 2 + 2 * DockDIDByteSize
      · rw [if_pos hlen] at h; cases h
      · rw [if_neg hlen] at h
        cases h
        exact hclose ". Error: Unexpected byte size" rfl
  · rw [if_neg hst] at h
    unfold validateDockDIDIdentifier at h
    by_cases hhex : isHexWithGivenByteSize did DockDIDByteSize = true
    · rw [if_pos hhex] at h
      dsimp only at h
      cases h
    · rw [if_neg hhex] at h
      dsimp only at h
      cases h
      constructor
      · intro htrue
        exact absurd htrue hst
      · intro _
        refine strStarts_of_data _ _
          (did.data ++ (". Error: " ++ ("DID identifier must be " ++
            toString DockDIDByteSize ++ " bytes")).data) ?_
        simp [String.data_append, List.append_assoc]

end DockDID

namespace ClaimDeduction

/-! ## Concrete fixtures from `src/tests/unit/claim-deduction.test.js` -/

/-- `sampleRules()` (claim-deduction.test.js lines 653–694): rule 0 is
the unconditional `a frobs b` axiom; rule 1 derives a name for
`did:dock:bddap` from a flying pig. -/
def sampleRules : List Rule :=
  [ { if_all := []
      then_ :=
        [ { s := .bound (.iri "https://example.com/a")
            p := .bound (.iri "https://example.com/frobs")
            o := .bound (.iri "https://example.com/b") } ] }
  , { if_all :=
        [ { s := .unbound "pig"
            p := .bound (.iri "https://example.com/Ability")
            o := .bound (.iri "https://example.com/Flight") }
        , { s := .unbound "pig"
            p := .bound (.iri "https://www.w3.org/1999/02/22-rdf-syntax-ns#type")
            o := .bound (.iri "https://example.com/Pig") } ]
      then_ :=
        [ { s := .bound (.iri "did:dock:bddap")
            p := .bound (.iri "http://xmlns.com/foaf/spec/#term_firstName")
            o := .bound (.literal "Gorgadon"
                   "http://www.w3.org/1999/02/22-rdf-syntax-ns#PlainLiteral" none) } ] } ]

/-- A fixed issuer DID for the sample credential (the tests generate a
random `did:dock:` DID; any string works here). -/
def sampleIssuer : String := "did:dock:issuer"

/-- The asserted content of `validCredential()` after JSON-LD expansion,
read off the expected claim graph in claim-deduction.test.js lines
143–253: five triples, in expansion order. -/
def sampleContent : List Triple :=
  [ ⟨.iri "did:example:ebfeb1f712ebc6f1c276e12ec21",
     .iri "http://schema.org/alumniOf",
     .literal "Example University" "http://www.w3.org/1999/02/22-rdf-syntax-ns#HTML" none⟩
  , ⟨.iri "https://example.com/credentials/1872",
     .iri "http://www.w3.org/1999/02/22-rdf-syntax-ns#type",
     .iri "https://www.w3.org/2018/credentials#VerifiableCredential"⟩
  , ⟨.iri "https://example.com/credentials/1872",
     .iri "https://www.w3.org/2018/credentials#credentialSubject",
     .iri "did:example:ebfeb1f712ebc6f1c276e12ec21"⟩
  , ⟨.iri "https://example.com/credentials/1872",
     .iri "https://www.w3.org/2018/credentials#issuanceDate",
     .literal "2010-01-01T19:23:24Z" "http://www.w3.org/2001/XMLSchema#dateTime" none⟩
  , ⟨.iri "https://example.com/credentials/1872",
     .iri "https://www.w3.org/2018/credentials#issuer",
     .iri sampleIssuer⟩ ]

/-- The expanded `validPresentation()` fixture: one verified credential. -/
def sampleCredential : Credential := ⟨.iri sampleIssuer, sampleContent⟩

/-- `validPresentation()` carrying proof `P`, verified. -/
def samplePresentation (P : Option (List ProofStep)) : Presentation :=
  { verified := true
    verifyError := ""
    credentials := [sampleCredential]
    logic := P }

/-- The triple derived by rule 0's unconditional axiom. -/
def frobsTriple : Triple :=
  ⟨.iri "https://example.com/a", .iri "https://example.com/frobs", .iri "https://example.com/b"⟩

/-- `rdf:type`. -/
def rdfType : Term := .iri "http://www.w3.org/1999/02/22-rdf-syntax-ns#type"

/-- The FAA credential of the licensing-chain test (claim-deduction
test lines 445–459): joe has the ability of flight. -/
def joeCanFly : Credential :=
  ⟨.iri "did:dock:faa",
   [⟨.iri "did:example:joe", .iri "https://example.com/Ability",
     .iri "https://example.com/Flight"⟩]⟩

/-- The pigchecker credential of the licensing-chain test (lines
430–444): joe is a pig. -/
def joeIsAPig : Credential :=
  ⟨.iri "did:dock:pigchecker",
   [⟨.iri "did:example:joe", rdfType, .iri "https://example.com/Pig"⟩]⟩

/-! ## Substitution and unification lemmas -/

/-- `σ'` extends `σ`: every binding of `σ` is a binding of `σ'`. -/
def sext (σ σ' : Subst) : Prop :=
  ∀ v t, slook σ v = some t → slook σ' v = some t

theorem sext_refl (σ : Subst) : sext σ σ := fun _ _ h => h

theorem sext_trans {σ1 σ2 σ3 : Subst} (h1 : sext σ1 σ2) (h2 : sext σ2 σ3) :
    sext σ1 σ3 := fun v t h => h2 v t (h1 v t h)

theorem applySlot_mono {σ σ' : Subst} (h : sext σ σ') (sl : Slot) (t : Term)
    (ha : applySlot σ sl = some t) : applySlot σ' sl = some t := by
  cases sl with
  | bound u => exact ha
  | unbound v => exact h v t ha

theorem applyAtom_mono {σ σ' : Subst} (h : sext σ σ') (a : Atom) (t : Triple)
    (ha : applyAtom σ a = some t) : applyAtom σ' a = some t := by
  unfold applyAtom at *
  cases hs : applySlot σ a.s with
  | none => rw [hs] at ha; exact absurd ha (by simp)
  | some ts =>
    rw [hs] at ha
    cases hp : applySlot σ a.p with
    | none => rw [hp] at ha; exact absurd ha (by simp)
    | some tp =>
      rw [hp] at ha
      cases ho : applySlot σ a.o with
      | none => rw [ho] at ha; exact absurd ha (by simp)
      | some to' =>
        rw [ho] at ha
        rw [applySlot_mono h a.s ts hs, applySlot_mono h a.p tp hp,
          applySlot_mono h a.o to' ho]
        exact ha

theorem unifySlot_sound {σ σ' : Subst} {sl : Slot} {t : Term}
    (h : unifySlot σ sl t = some σ') :
    sext σ σ' ∧ applySlot σ' sl = some t := by
  cases sl with
  | bound u =>
    simp only [unifySlot] at h
    by_cases hu : u = t
    · rw [if_pos hu] at h
      cases h
      exact ⟨sext_refl _, by simp [applySlot, hu]⟩
    · rw [if_neg hu] at h; cases h
  | unbound v =>
    cases hl : slook σ v with
    | some w =>
      simp only [unifySlot, hl] at h
      by_cases hw : w = t
      · rw [if_pos hw] at h
        cases h
        exact ⟨sext_refl _, by simpa [applySlot, hw] using hl⟩
      · rw [if_neg hw] at h; cases h
    | none =>
      simp only [unifySlot, hl] at h
      cases h
      constructor
      · intro x u hx
        simp only [slook]
        by_cases hxv : v = x
        · subst hxv; rw [hl] at hx; cases hx
        · rw [if_neg hxv]; exact hx
      · simp [applySlot, slook]

theorem unifyAtom_sound {σ σ' : Subst} {a : Atom} {t : Triple}
    (h : unifyAtom σ a t = some σ') :
    sext σ σ' ∧ applyAtom σ' a = some t := by
  unfold unifyAtom at h
  simp only [Option.bind_eq_bind] at h
  cases h1 : unifySlot σ a.s t.s with
  | none => rw [h1] at h; simp at h
  | some σ1 =>
    rw [h1] at h
    simp only [Option.some_bind] at h
    cases h2 : unifySlot σ1 a.p t.p with
    | none => rw [h2] at h; simp at h
    | some σ2 =>
      rw [h2] at h
      simp only [Option.some_bind] at h
      obtain ⟨e1, hs1⟩ := unifySlot_sound h1
      obtain ⟨e2, hs2⟩ := unifySlot_sound h2
      obtain ⟨e3, hs3⟩ := unifySlot_sound h
      refine ⟨sext_trans e1 (sext_trans e2 e3), ?_⟩
      unfold applyAtom
      rw [applySlot_mono (sext_trans e2 e3) a.s t.s hs1, applySlot_mono e3 a.p t.p hs2, hs3]
      rfl

theorem matchBody_sound (K : ClaimGraph) (atoms : List Atom) (σ σf : Subst)
    (h : σf ∈ matchBody K atoms σ) :
    sext σ σf ∧ ∀ a ∈ atoms, ∃ t ∈ K, applyAtom σf a = some t := by
  induction atoms generalizing σ with
  | nil =>
    simp only [matchBody, List.mem_singleton] at h
    subst h
    exact ⟨sext_refl _, by simp⟩
  | cons a atoms ih =>
    simp only [matchBody, List.mem_flatMap, List.mem_filterMap] at h
    obtain ⟨σ1, ⟨t, htK, hunify⟩, hrest⟩ := h
    obtain ⟨e1, happ⟩ := unifyAtom_sound hunify
    obtain ⟨e2, hforall⟩ := ih σ1 hrest
    refine ⟨sext_trans e1 e2, ?_⟩
    intro b hb
    rcases List.mem_cons.mp hb with rfl | hb
    · exact ⟨t, htK, applyAtom_mono e2 b t happ⟩
    · exact hforall b hb

/-- The canonical-order zip substitution agrees with `σ` on every listed
variable, when the instantiation list was read off `σ` (spec §4.4
"Canonical variable order" / §4.5 step "Build substitution"). -/
theorem zip_slook_agree (vs : List String) (σ : Subst) (inst : List Term)
    (h : omap (slook σ) vs = some inst) :
    ∀ v ∈ vs, slook (List.zip vs inst) v = slook σ v := by
  induction vs generalizing inst with
  | nil => intro v hv; cases hv
  | cons v0 vs ih =>
    unfold omap at h
    cases h0 : slook σ v0 with
    | none => rw [h0] at h; exact absurd h (by simp)
    | some t0 =>
      rw [h0] at h
      cases hrest : omap (slook σ) vs with
      | none => rw [hrest] at h; exact absurd h (by simp)
      | some inst' =>
        rw [hrest] at h
        simp only [Option.some.injEq] at h
        subst h
        intro v hv
        simp only [List.zip_cons_cons, slook]
        by_cases hvv : v0 = v
        · subst hvv; rw [if_pos rfl, h0]
        · rw [if_neg hvv]
          rcases List.mem_cons.mp hv with rfl | hv
          · exact absurd rfl hvv
          · exact ih inst' hrest v hv

theorem applyAtom_congr (σ1 σ2 : Subst) (a : Atom)
    (h : ∀ v ∈ atomVars a, slook σ1 v = slook σ2 v) :
    applyAtom σ1 a = applyAtom σ2 a := by
  have hs : applySlot σ1 a.s = applySlot σ2 a.s := by
    cases hsl : a.s with
    | bound t => rfl
    | unbound v =>
      exact h v (by simp [atomVars, hsl, slotVars])
  have hp : applySlot σ1 a.p = applySlot σ2 a.p := by
    cases hsl : a.p with
    | bound t => rfl
    | unbound v =>
      exact h v (by simp [atomVars, hsl, slotVars])
  have ho : applySlot σ1 a.o = applySlot σ2 a.o := by
    cases hsl : a.o with
    | bound t => rfl
    | unbound v =>
      exact h v (by simp [atomVars, hsl, slotVars])
  unfold applyAtom
  rw [hs, hp, ho]

/-! ## Prover/validator round-trip: the trace invariant

The prover's log is always replayable by the validator: every step's
body was matched against facts already known, i.e. premises or heads of
earlier steps, and the head triples grow the known set.  We carry this
as an invariant of the saturation loop. -/

/-- The trace invariant: the log validates, everything it assumed is a
premise, and the known set is premises plus implied facts. -/
def Inv (F : ClaimGraph) (rules : List Rule) (K : ClaimGraph) (L : List ProofStep) : Prop :=
  ∃ A I, validateh rules L = .ok (A, I) ∧
    (∀ a ∈ A, a ∈ F) ∧ (∀ t ∈ K, t ∈ F ∨ t ∈ I)

theorem fireOne_ext (i : Nat) (r : Rule) (KL : ClaimGraph × List ProofStep) (σ : Subst) :
    ∃ ext Δ, fireOne i r KL σ = (KL.1 ++ ext, KL.2 ++ Δ) := by
  unfold fireOne
  cases instOf r σ with
  | none => exact ⟨[], [], by simp⟩
  | some inst =>
    cases omap (applyAtom σ) r.then_ with
    | none => exact ⟨[], [], by simp⟩
    | some H =>
      dsimp only
      by_cases hall : H.all (cgContains KL.1) = true
      · rw [if_pos hall]; exact ⟨[], [], by simp⟩
      · rw [if_neg hall]
        obtain ⟨ext, hext, _⟩ := addAll_shape KL.1 H
        exact ⟨ext, [⟨i, inst⟩], by rw [hext]⟩

theorem fireOne_fst_indep (i : Nat) (r : Rule) (K : ClaimGraph)
    (L L' : List ProofStep) (σ : Subst) :
    (fireOne i r (K, L) σ).1 = (fireOne i r (K, L') σ).1 := by
  unfold fireOne
  cases instOf r σ with
  | none => rfl
  | some inst =>
    cases omap (applyAtom σ) r.then_ with
    | none => rfl
    | some H =>
      dsimp only
      by_cases hall : H.all (cgContains K) = true
      · rw [if_pos hall, if_pos hall]
      · rw [if_neg hall, if_neg hall]

theorem foldlFire_ext (i : Nat) (r : Rule) (σs : List Subst) :
    ∀ KL, ∃ ext Δ, σs.foldl (fireOne i r) KL = (KL.1 ++ ext, KL.2 ++ Δ) := by
  induction σs with
  | nil => exact fun KL => ⟨[], [], by simp⟩
  | cons σ σs ih =>
    intro KL
    obtain ⟨e1, d1, h1⟩ := fireOne_ext i r KL σ
    obtain ⟨e2, d2, h2⟩ := ih (fireOne i r KL σ)
    refine ⟨e1 ++ e2, d1 ++ d2, ?_⟩
    simp only [List.foldl_cons]
    rw [h2, h1]
    simp [List.append_assoc]

theorem foldlFire_fst_indep (i : Nat) (r : Rule) (σs : List Subst) :
    ∀ (K : ClaimGraph) (L L' : List ProofStep),
      (σs.foldl (fireOne i r) (K, L)).1 = (σs.foldl (fireOne i r) (K, L')).1 := by
  induction σs with
  | nil => intro K L L'; rfl
  | cons σ σs ih =>
    intro K L L'
    simp only [List.foldl_cons]
    have h1 : fireOne i r (K, L) σ = ((fireOne i r (K, L) σ).1, (fireOne i r (K, L) σ).2) := rfl
    have h2 : fireOne i r (K, L') σ = ((fireOne i r (K, L') σ).1, (fireOne i r (K, L') σ).2) := rfl
    rw [h1, h2, fireOne_fst_indep i r K L L' σ]
    exact ih (fireOne i r (K, L') σ).1 (fireOne i r (K, L) σ).2 (fireOne i r (K, L') σ).2

theorem applyRule_ext (i : Nat) (r : Rule) (KL : ClaimGraph × List ProofStep) :
    ∃ ext Δ, applyRule i r KL = (KL.1 ++ ext, KL.2 ++ Δ) :=
  foldlFire_ext i r (matchBody KL.1 r.if_all []) KL

theorem applyRule_fst_indep (i : Nat) (r : Rule) (K : ClaimGraph) (L L' : List ProofStep) :
    (applyRule i r (K, L)).1 = (applyRule i r (K, L')).1 :=
  foldlFire_fst_indep i r (matchBody K r.if_all []) K L L'

theorem roundGo_ext (rules : List Rule) :
    ∀ (i : Nat) KL, ∃ ext Δ, roundGo rules i KL = (KL.1 ++ ext, KL.2 ++ Δ) := by
  induction rules with
  | nil => exact fun i KL => ⟨[], [], by simp [roundGo]⟩
  | cons r rest ih =>
    intro i KL
    obtain ⟨e1, d1, h1⟩ := applyRule_ext i r KL
    obtain ⟨e2, d2, h2⟩ := ih (i + 1) (applyRule i r KL)
    refine ⟨e1 ++ e2, d1 ++ d2, ?_⟩
    simp only [roundGo]
    rw [h2, h1]
    simp [List.append_assoc]

theorem roundGo_fst_indep (rules : List Rule) :
    ∀ (i : Nat) (K : ClaimGraph) (L L' : List ProofStep),
      (roundGo rules i (K, L)).1 = (roundGo rules i (K, L')).1 := by
  induction rules with
  | nil => intro i K L L'; rfl
  | cons r rest ih =>
    intro i K L L'
    simp only [roundGo]
    have h1 : applyRule i r (K, L) = ((applyRule i r (K, L)).1, (applyRule i r (K, L)).2) := rfl
    have h2 : applyRule i r (K, L') = ((applyRule i r (K, L')).1, (applyRule i r (K, L')).2) := rfl
    rw [h1, h2, applyRule_fst_indep i r K L L']
    exact ih (i + 1) (applyRule i r (K, L')).1 (applyRule i r (K, L)).2 (applyRule i r (K, L')).2

theorem fireOne_inv (F : ClaimGraph) (rules : List Rule) (i : Nat) (r : Rule)
    (K₀ : ClaimGraph) (KL : ClaimGraph × List ProofStep) (σ : Subst)
    (hr : rules.get? i = some r)
    (hbody : ∀ a ∈ r.if_all, ∃ t, t ∈ K₀ ∧ applyAtom σ a = some t)
    (hK₀ : ∀ t ∈ K₀, t ∈ KL.1)
    (hinv : Inv F rules KL.1 KL.2) :
    Inv F rules (fireOne i r KL σ).1 (fireOne i r KL σ).2 := by
  unfold fireOne
  cases hinst : instOf r σ with
  | none => exact hinv
  | some inst =>
    cases homap : omap (applyAtom σ) r.then_ with
    | none => exact hinv
    | some H =>
      dsimp only
      by_cases hall : H.all (cgContains KL.1) = true
      · rw [if_pos hall]; exact hinv
      · rw [if_neg hall]
        obtain ⟨A, I, hval, hAF, hKFI⟩ := hinv
        -- the canonical-order substitution the validator rebuilds agrees with σ
        have hagree : ∀ v ∈ ruleVars r, slook (List.zip (ruleVars r) inst) v = slook σ v :=
          zip_slook_agree (ruleVars r) σ inst hinst
        have hcongr : ∀ a ∈ r.if_all ++ r.then_,
            applyAtom (List.zip (ruleVars r) inst) a = applyAtom σ a := by
          intro a ha
          exact applyAtom_congr _ _ a
            (fun v hv => hagree v ((mem_ruleVars r v).mpr ⟨a, ha, hv⟩))
        obtain ⟨B, hB, hBK⟩ :=
          omap_of_forall (applyAtom σ) (fun t => t ∈ K₀) r.if_all
            (fun a ha => (hbody a ha).elim (fun t ht => ⟨t, ht.2, ht.1⟩))
        have hBz : omap (applyAtom (List.zip (ruleVars r) inst)) r.if_all = some B := by
          rw [omap_congr _ (applyAtom σ) r.if_all
            (fun a ha => hcongr a (List.mem_append_left _ ha))]
          exact hB
        have hHz : omap (applyAtom (List.zip (ruleVars r) inst)) r.then_ = some H := by
          rw [omap_congr _ (applyAtom σ) r.then_
            (fun a ha => hcongr a (List.mem_append_right _ ha))]
          exact homap
        have harity : inst.length = (ruleVars r).length :=
          omap_length (slook σ) (ruleVars r) inst hinst
        have hstep : validateStep rules (A, I) ⟨i, inst⟩ =
            .ok (addAssumed I A B, addAll I H) := by
          simp only [validateStep, hr, harity, if_true, hBz, hHz]
        have hval' : validateh rules (KL.2 ++ [⟨i, inst⟩]) =
            .ok (addAssumed I A B, addAll I H) := by
          unfold validateh at *
          rw [validateFrom_append, hval]
          simp [validateFrom, hstep]
        refine ⟨addAssumed I A B, addAll I H, hval', ?_, ?_⟩
        · intro a ha
          rcases (mem_addAssumed I A B a).mp ha with h | ⟨hB', hnI⟩
          · exact hAF a h
          · rcases hKFI a (hK₀ a (hBK a hB')) with h | h
            · exact h
            · exact absurd h hnI
        · intro t ht
          rcases (mem_addAll KL.1 H t).mp ht with h | h
          · rcases hKFI t h with h' | h'
            · exact Or.inl h'
            · exact Or.inr ((mem_addAll I H t).mpr (Or.inl h'))
          · exact Or.inr ((mem_addAll I H t).mpr (Or.inr h))

theorem foldlFire_inv (F : ClaimGraph) (rules : List Rule) (i : Nat) (r : Rule)
    (K₀ : ClaimGraph) (σs : List Subst) :
    ∀ KL, rules.get? i = some r →
      (∀ σ ∈ σs, ∀ a ∈ r.if_all, ∃ t, t ∈ K₀ ∧ applyAtom σ a = some t) →
      (∀ t ∈ K₀, t ∈ KL.1) → Inv F rules KL.1 KL.2 →
      Inv F rules (σs.foldl (fireOne i r) KL).1 (σs.foldl (fireOne i r) KL).2 := by
  induction σs with
  | nil => intro KL _ _ _ hinv; exact hinv
  | cons σ σs ih =>
    intro KL hr hbody hK₀ hinv
    simp only [List.foldl_cons]
    obtain ⟨ext, Δ, hshape⟩ := fireOne_ext i r KL σ
    refine ih (fireOne i r KL σ) hr
      (fun σ' hσ' => hbody σ' (List.mem_cons_of_mem σ hσ')) ?_ ?_
    · intro t ht
      rw [hshape]
      exact List.mem_append_left _ (hK₀ t ht)
    · exact fireOne_inv F rules i r K₀ KL σ hr
        (hbody σ (List.mem_cons_self σ σs)) hK₀ hinv

theorem applyRule_inv (F : ClaimGraph) (rules : List Rule) (i : Nat) (r : Rule)
    (KL : ClaimGraph × List ProofStep)
    (hr : rules.get? i = some r)
    (hinv : Inv F rules KL.1 KL.2) :
    Inv F rules (applyRule i r KL).1 (applyRule i r KL).2 := by
  unfold applyRule
  refine foldlFire_inv F rules i r KL.1 (matchBody KL.1 r.if_all []) KL hr ?_
    (fun t ht => ht) hinv
  intro σ hσ a ha
  obtain ⟨_, hforall⟩ := matchBody_sound KL.1 r.if_all [] σ hσ
  obtain ⟨t, htK, happ⟩ := hforall a ha
  exact ⟨t, htK, happ⟩

theorem roundGo_inv (F : ClaimGraph) (R : List Rule) :
    ∀ (rules : List Rule) (i : Nat) (KL : ClaimGraph × List ProofStep),
      (∀ j r, rules.get? j = some r → R.get? (i + j) = some r) →
      Inv F R KL.1 KL.2 →
      Inv F R (roundGo rules i KL).1 (roundGo rules i KL).2 := by
  intro rules
  induction rules with
  | nil => intro i KL _ hinv; exact hinv
  | cons r rest ih =>
    intro i KL hidx hinv
    simp only [roundGo]
    refine ih (i + 1) (applyRule i r KL) ?_ ?_
    · intro j r' hj
      have := hidx (j + 1) r' (by simpa using hj)
      simpa [Nat.add_assoc, Nat.add_comm 1 j] using this
    · exact applyRule_inv F R i r KL (by simpa using hidx 0 r rfl) hinv

theorem round_inv (F : ClaimGraph) (R : List Rule) (K : ClaimGraph) (L : List ProofStep)
    (hinv : Inv F R K L) :
    Inv F R (roundGo R 0 (K, L)).1 (roundGo R 0 (K, L)).2 :=
  roundGo_inv F R R 0 (K, L) (fun j r hj => by simpa using hj) hinv

theorem all_contains_iff (g : List Triple) (K : ClaimGraph) :
    g.all (cgContains K) = true ↔ ∀ t ∈ g, t ∈ K := by
  rw [List.all_eq_true]
  constructor
  · intro h t ht; exact (cgContains_iff K t).mp (h t ht)
  · intro h t ht; exact (cgContains_iff K t).mpr (h t ht)

/-- The saturation loop and the prover evolve the known set identically,
so whenever the goals are inside the saturated set the prover succeeds
with a log that validates with premises-only assumptions. -/
theorem proveLoop_sound (F : ClaimGraph) (R : List Rule) (g : List Triple) :
    ∀ (n : Nat) (K : ClaimGraph) (L : List ProofStep),
      Inv F R K L →
      (∀ t ∈ g, t ∈ satLoop R n K) →
      ∃ L' A I, proveLoop R g n K L = .ok L' ∧ validateh R L' = .ok (A, I) ∧
        (∀ a ∈ A, a ∈ F) ∧ (∀ t ∈ g, t ∈ F ∨ t ∈ I) := by
  intro n
  induction n with
  | zero =>
    intro K L hinv hg
    obtain ⟨A, I, hval, hAF, hKFI⟩ := hinv
    have hall : g.all (cgContains K) = true := (all_contains_iff g K).mpr hg
    refine ⟨L, A, I, ?_, hval, hAF, fun t ht => hKFI t (hg t ht)⟩
    simp [proveLoop, hall]
  | succ n ih =>
    intro K L hinv hg
    by_cases hall : g.all (cgContains K) = true
    · obtain ⟨A, I, hval, hAF, hKFI⟩ := hinv
      refine ⟨L, A, I, ?_, hval, hAF,
        fun t ht => hKFI t ((all_contains_iff g K).mp hall t ht)⟩
      simp [proveLoop, hall]
    · have hfst : (roundGo R 0 (K, L)).1 = (roundGo R 0 (K, [])).1 :=
        roundGo_fst_indep R 0 K L []
      by_cases hlen : (roundGo R 0 (K, [])).1.length = K.length
      · -- fixpoint: the saturated set is K itself, contradicting ¬(goals ⊆ K)
        exfalso
        have : satLoop R (n + 1) K = K := by
          simp only [satLoop]
          rw [if_pos hlen]
        rw [this] at hg
        exact hall ((all_contains_iff g K).mpr hg)
      · have hsat : satLoop R (n + 1) K = satLoop R n (roundGo R 0 (K, [])).1 := by
          simp only [satLoop]
          rw [if_neg hlen]
        rw [hsat] at hg
        have hinv' : Inv F R (roundGo R 0 (K, L)).1 (roundGo R 0 (K, L)).2 :=
          round_inv F R K L hinv
        rw [hfst] at hinv'
        have hg' : ∀ t ∈ g, t ∈ satLoop R n (roundGo R 0 (K, L)).1 := by
          rw [hfst]; exact hg
        obtain ⟨L', A, I, hloop, hrest⟩ :=
          ih (roundGo R 0 (K, L)).1 (roundGo R 0 (K, L)).2 (by rw [hfst]; exact hinv') hg'
        refine ⟨L', A, I, ?_, hrest⟩
        simp only [proveLoop]
        rw [if_neg hall]
        rw [if_neg (by rw [hfst]; exact hlen)]
        exact hloop

/-! ## Validator characterization

A state-free description of the validator's result: the implied set is
exactly the instantiated heads of the proof's steps, and the assumed set
is exactly the instantiated body triples that were not implied by an
earlier step. -/

/-- The instantiated `(body, head)` triples of a step, as the validator
computes them (spec §4.5 step 2); `none` when the step is malformed. -/
def stepTriples (rules : List Rule) (s : ProofStep) : Option (List Triple × List Triple) :=
  match rules.get? s.rule_index with
  | none => none
  | some r =>
    if s.instantiations.length = (ruleVars r).length then
      match omap (applyAtom (List.zip (ruleVars r) s.instantiations)) r.if_all,
            omap (applyAtom (List.zip (ruleVars r) s.instantiations)) r.then_ with
      | some B, some H => some (B, H)
      | _, _ => none
    else none

/-- Heads instantiated by the first `k` steps of a proof. -/
def headsUpTo (rules : List Rule) (proof : List ProofStep) (k : Nat) : List Triple :=
  (proof.take k).flatMap (fun s => ((stepTriples rules s).map Prod.snd).getD [])

theorem validateStep_ok (rules : List Rule) (st : VState) (s : ProofStep) (st' : VState)
    (h : validateStep rules st s = .ok st') :
    ∃ B H, stepTriples rules s = some (B, H) ∧
      st' = (addAssumed st.2 st.1 B, addAll st.2 H) := by
  unfold validateStep at h
  cases hr : rules.get? s.rule_index with
  | none => rw [hr] at h; cases h
  | some r =>
    rw [hr] at h
    dsimp only at h
    by_cases hlen : s.instantiations.length = (ruleVars r).length
    · rw [if_pos hlen] at h
      cases hB : omap (applyAtom (List.zip (ruleVars r) s.instantiations)) r.if_all with
      | none => rw [hB] at h; cases h
      | some B =>
        rw [hB] at h
        cases hH : omap (applyAtom (List.zip (ruleVars r) s.instantiations)) r.then_ with
        | none => rw [hH] at h; cases h
        | some H =>
          rw [hH] at h
          cases h
          exact ⟨B, H, by simp only [stepTriples, hr, if_pos hlen, hB, hH], rfl⟩
    · rw [if_neg hlen] at h; cases h

theorem headsUpTo_zero (rules : List Rule) (proof : List ProofStep) :
    headsUpTo rules proof 0 = [] := rfl

theorem headsUpTo_succ_cons (rules : List Rule) (s : ProofStep) (rest : List ProofStep)
    (k : Nat) :
    headsUpTo rules (s :: rest) (k + 1) =
      ((stepTriples rules s).map Prod.snd).getD [] ++ headsUpTo rules rest k := by
  simp [headsUpTo, List.take_succ_cons]

/-- State-relative characterization of the validator's replay. -/
theorem validateFrom_char (rules : List Rule) :
    ∀ (proof : List ProofStep) (st st' : VState),
      validateFrom rules st proof = .ok st' →
      (∀ t, t ∈ st'.2 ↔ t ∈ st.2 ∨ ∃ k s BH, proof.get? k = some s ∧
          stepTriples rules s = some BH ∧ t ∈ BH.2) ∧
      (∀ a, a ∈ st'.1 ↔ a ∈ st.1 ∨ ∃ k s BH, proof.get? k = some s ∧
          stepTriples rules s = some BH ∧ a ∈ BH.1 ∧ a ∉ st.2 ∧
          a ∉ headsUpTo rules proof k) := by
  intro proof
  induction proof with
  | nil =>
    intro st st' h
    simp only [validateFrom] at h
    cases h
    constructor
    · intro t; simp
    · intro a; simp
  | cons s rest ih =>
    intro st st' h
    simp only [validateFrom] at h
    cases hstep : validateStep rules st s with
    | error e => rw [hstep] at h; cases h
    | ok st1 =>
      rw [hstep] at h
      dsimp only at h
      obtain ⟨B, H, hBH, hst1⟩ := validateStep_ok rules st s st1 hstep
      obtain ⟨ihI, ihA⟩ := ih st1 st' h
      have hst1_2 : ∀ t, t ∈ st1.2 ↔ t ∈ st.2 ∨ t ∈ H := by
        intro t; rw [hst1]; exact mem_addAll st.2 H t
      have hst1_1 : ∀ a, a ∈ st1.1 ↔ a ∈ st.1 ∨ (a ∈ B ∧ a ∉ st.2) := by
        intro a; rw [hst1]; exact mem_addAssumed st.2 st.1 B a
      constructor
      · intro t
        rw [ihI t]
        constructor
        · rintro (h1 | ⟨k, s', BH', hk, hBH', hmem⟩)
          · rcases (hst1_2 t).mp h1 with h2 | h2
            · exact Or.inl h2
            · exact Or.inr ⟨0, s, (B, H), rfl, hBH, h2⟩
          · exact Or.inr ⟨k + 1, s', BH', by simpa using hk, hBH', hmem⟩
        · rintro (h1 | ⟨k, s', BH', hk, hBH', hmem⟩)
          · exact Or.inl ((hst1_2 t).mpr (Or.inl h1))
          · cases k with
            | zero =>
              simp only [List.get?_cons_zero, Option.some.injEq] at hk
              subst hk
              rw [hBH] at hBH'
              cases hBH'
              exact Or.inl ((hst1_2 t).mpr (Or.inr hmem))
            | succ k =>
              simp only [List.get?_cons_succ] at hk
              exact Or.inr ⟨k, s', BH', hk, hBH', hmem⟩
      · intro a
        rw [ihA a]
        have hheads : ∀ k, a ∉ headsUpTo rules (s :: rest) (k + 1) ↔
            (a ∉ H ∧ a ∉ headsUpTo rules rest k) := by
          intro k
          rw [headsUpTo_succ_cons, hBH]
          simp only [Option.map_some, Option.getD_some, List.mem_append]
          tauto
        constructor
        · rintro (h1 | ⟨k, s', BH', hk, hBH', hmem, hnotI, hnotH⟩)
          · rcases (hst1_1 a).mp h1 with h2 | ⟨h2, h3⟩
            · exact Or.inl h2
            · exact Or.inr ⟨0, s, (B, H), rfl, hBH, h2, h3,
                by rw [headsUpTo_zero]; exact List.not_mem_nil a⟩
          · have hnot2 : a ∉ st.2 ∧ a ∉ H := by
              constructor
              · intro hc; exact hnotI ((hst1_2 a).mpr (Or.inl hc))
              · intro hc; exact hnotI ((hst1_2 a).mpr (Or.inr hc))
            exact Or.inr ⟨k + 1, s', BH', by simpa using hk, hBH', hmem, hnot2.1,
              (hheads k).mpr ⟨hnot2.2, hnotH⟩⟩
        · rintro (h1 | ⟨k, s', BH', hk, hBH', hmem, hnotI, hnotH⟩)
          · exact Or.inl ((hst1_1 a).mpr (Or.inl h1))
          · cases k with
            | zero =>
              simp only [List.get?_cons_zero, Option.some.injEq] at hk
              subst hk
              rw [hBH] at hBH'
              cases hBH'
              exact Or.inl ((hst1_1 a).mpr (Or.inr ⟨hmem, hnotI⟩))
            | succ k =>
              simp only [List.get?_cons_succ] at hk
              have hconj := (hheads k).mp hnotH
              refine Or.inr ⟨k, s', BH', hk, hBH', hmem, ?_, hconj.2⟩
              intro hc
              rcases (hst1_2 a).mp hc with h2 | h2
              · exact hnotI h2
              · exact hconj.1 h2

/-! ## Soundness-driver decomposition -/

theorem checkSoundness_ok (p : Presentation) (rules : List Rule) (G : ClaimGraph)
    (h : checkSoundness p rules = .ok G) :
    p.verified = true ∧
    ∃ A I, validateh rules (p.logic.getD []) = .ok (A, I) ∧
      (∀ a ∈ A, a ∈ presentationToEEClaimGraph p.credentials) ∧
      G = addAll (presentationToEEClaimGraph p.credentials) I := by
  unfold checkSoundness at h
  by_cases hv : p.verified = true
  · rw [if_pos hv] at h
    refine ⟨hv, ?_⟩
    unfold acceptCompositeClaims at h
    cases hval : validateh rules (p.logic.getD []) with
    | error e => rw [hval] at h; cases h
    | ok st =>
      obtain ⟨A, I⟩ := st
      rw [hval] at h
      dsimp only at h
      cases hfind : A.find?
          (fun a => !(cgContains (presentationToEEClaimGraph p.credentials) a)) with
      | some a => rw [hfind] at h; cases h
      | none =>
        rw [hfind] at h
        cases h
        refine ⟨A, I, rfl, ?_, rfl⟩
        intro a ha
        have := List.find?_eq_none.mp hfind a ha
        simp only [Bool.not_eq_true', Bool.not_eq_false] at this
        exact (cgContains_iff _ a).mp this
  · rw [if_neg hv] at h; cases h

theorem checkSoundness_unverifiedAssumption (p : Presentation) (rules : List Rule)
    (A I : ClaimGraph) (a : Triple)
    (hv : p.verified = true)
    (hval : validateh rules (p.logic.getD []) = .ok (A, I))
    (hfind : A.find?
      (fun a => !(cgContains (presentationToEEClaimGraph p.credentials) a)) = some a) :
    checkSoundness p rules = .error (.unverifiedAssumption a) := by
  unfold checkSoundness acceptCompositeClaims
  rw [if_pos hv, hval]
  dsimp only
  rw [hfind]

theorem checkSoundness_validate_error (p : Presentation) (rules : List Rule) (e : CDError)
    (hv : p.verified = true)
    (hval : validateh rules (p.logic.getD []) = .error e) :
    checkSoundness p rules = .error e := by
  unfold checkSoundness acceptCompositeClaims
  rw [if_pos hv, hval]

/-! ## Translator lemmas -/

theorem translateCred_length (issuer : Term) (ts : List Triple) :
    ∀ n, (translateCred issuer n ts).length = 4 * ts.length := by
  induction ts with
  | nil => intro n; rfl
  | cons t ts ih =>
    intro n
    simp only [translateCred, List.length_append, ih (n + 1), reifyTriple,
      List.length_cons, List.length_nil, List.length_cons]
    omega

theorem translateCred_mem (issuer : Term) (ts : List Triple) :
    ∀ n j t, ts.get? j = some t →
      ∀ u ∈ reifyTriple (.blank (blankName (n + j))) issuer t,
        u ∈ translateCred issuer n ts := by
  induction ts with
  | nil => intro n j t hj; cases hj
  | cons t0 ts ih =>
    intro n j t hj u hu
    cases j with
    | zero =>
      simp only [List.get?_cons_zero, Option.some.injEq] at hj
      subst hj
      simp only [translateCred]
      exact List.mem_append_left _ (by simpa using hu)
    | succ j =>
      simp only [List.get?_cons_succ] at hj
      simp only [translateCred]
      refine List.mem_append_right _ ?_
      have : n + (j + 1) = (n + 1) + j := by omega
      rw [this] at hu
      exact ih (n + 1) j t hj u hu

theorem translateCred_exact (issuer : Term) (ts : List Triple) :
    ∀ n, ∀ u ∈ translateCred issuer n ts,
      ∃ j t, ts.get? j = some t ∧
        u ∈ reifyTriple (.blank (blankName (n + j))) issuer t := by
  induction ts with
  | nil => intro n u hu; cases hu
  | cons t0 ts ih =>
    intro n u hu
    simp only [translateCred] at hu
    rcases List.mem_append.mp hu with h | h
    · exact ⟨0, t0, rfl, by simpa using h⟩
    · obtain ⟨j, t, hj, hmem⟩ := ih (n + 1) u h
      refine ⟨j + 1, t, by simpa using hj, ?_⟩
      have : n + (j + 1) = (n + 1) + j := by omega
      rw [this]
      exact hmem

/-! ## Blank-node freshness of the union -/

theorem foldl_max_init (l : List String) :
    ∀ acc, acc ≤ l.foldl (fun a s => Nat.max a (idxOf s)) acc := by
  induction l with
  | nil => intro acc; exact Nat.le_refl acc
  | cons x l ih =>
    intro acc
    simp only [List.foldl_cons]
    exact Nat.le_trans (Nat.le_max_left acc (idxOf x)) (ih _)

theorem foldl_max_mem (l : List String) :
    ∀ acc s, s ∈ l → idxOf s ≤ l.foldl (fun a s => Nat.max a (idxOf s)) acc := by
  induction l with
  | nil => intro acc s hs; cases hs
  | cons x l ih =>
    intro acc s hs
    simp only [List.foldl_cons]
    rcases List.mem_cons.mp hs with rfl | hs
    · exact Nat.le_trans (Nat.le_max_right acc (idxOf s)) (foldl_max_init l _)
    · exact ih _ s hs

theorem blankName_lt_nextIdx (a : ClaimGraph) (m : Nat)
    (h : blankName m ∈ cgBlanks a) : m < nextIdx a := by
  unfold nextIdx
  cases hbl : cgBlanks a with
  | nil => rw [hbl] at h; cases h
  | cons x xs =>
    rw [hbl] at h
    dsimp only
    have := foldl_max_mem (x :: xs) 0 (blankName m) h
    rw [idxOf_blankName] at this
    omega

theorem alook_mkRen (ls : List String) :
    ∀ n v, v ∈ ls → ∃ i, alook (mkRen n ls) v = some (blankName (n + i)) := by
  induction ls with
  | nil => intro n v hv; cases hv
  | cons x ls ih =>
    intro n v hv
    simp only [mkRen, alook]
    by_cases hxv : x = v
    · rw [if_pos hxv]
      exact ⟨0, rfl⟩
    · rw [if_neg hxv]
      rcases List.mem_cons.mp hv with rfl | hv
      · exact absurd rfl hxv
      · obtain ⟨i, hi⟩ := ih (n + 1) v hv
        refine ⟨i + 1, ?_⟩
        rw [hi]
        congr 1
        congr 1
        omega

theorem termBlanks_rename (ρ : List (String × String)) (u : Term) (s' : String)
    (h : s' ∈ termBlanks (renameTerm ρ u)) :
    ∃ v ∈ termBlanks u, s' = (alook ρ v).getD v := by
  cases u with
  | iri x => cases h
  | literal x y z => cases h
  | blank v =>
    refine ⟨v, by simp [termBlanks], ?_⟩
    simp only [renameTerm] at h
    cases hl : alook ρ v with
    | none => rw [hl] at h; simp [termBlanks] at h; simp [hl, h]
    | some w => rw [hl] at h; simp [termBlanks] at h; simp [hl, h]

theorem cgBlanks_rename (ρ : List (String × String)) (b : ClaimGraph) (s' : String)
    (h : s' ∈ cgBlanks (b.map (renameTriple ρ))) :
    ∃ v ∈ cgBlanks b, s' = (alook ρ v).getD v := by
  simp only [cgBlanks, List.mem_flatMap, List.mem_map] at h
  obtain ⟨t', ⟨t, ht, rfl⟩, hs'⟩ := h
  simp only [tripleBlanks, renameTriple, List.mem_append] at hs'
  rcases hs' with (h | h) | h
  · obtain ⟨v, hv, rfl⟩ := termBlanks_rename ρ t.s s' h
    exact ⟨v, List.mem_flatMap.mpr
      ⟨t, ht, List.mem_append_left _ (List.mem_append_left _ hv)⟩, rfl⟩
  · obtain ⟨v, hv, rfl⟩ := termBlanks_rename ρ t.p s' h
    exact ⟨v, List.mem_flatMap.mpr
      ⟨t, ht, List.mem_append_left _ (List.mem_append_right _ hv)⟩, rfl⟩
  · obtain ⟨v, hv, rfl⟩ := termBlanks_rename ρ t.o s' h
    exact ⟨v, List.mem_flatMap.mpr ⟨t, ht, List.mem_append_right _ hv⟩, rfl⟩

theorem renamedPart_blank_shape (a b : ClaimGraph) (s' : String)
    (h : s' ∈ cgBlanks (renamedPart a b)) :
    ∃ i, s' = blankName (nextIdx a + i) := by
  unfold renamedPart at h
  obtain ⟨v, hv, hs'⟩ := cgBlanks_rename _ b s' h
  have hvded : v ∈ dedupAux [] (cgBlanks b) :=
    (mem_dedupAux [] (cgBlanks b) v).mpr ⟨hv, List.not_mem_nil v⟩
  obtain ⟨i, hi⟩ := alook_mkRen (dedupAux [] (cgBlanks b)) (nextIdx a) v hvded
  rw [hi] at hs'
  exact ⟨i, hs'⟩

/-- Blank labels on the two sides of a union never collide. -/
theorem cgUnion_blank_disjoint (a b : ClaimGraph) (s s' : String)
    (hs : s ∈ cgBlanks a) (hs' : s' ∈ cgBlanks (renamedPart a b)) : s ≠ s' := by
  obtain ⟨i, rfl⟩ := renamedPart_blank_shape a b s' hs'
  intro heq
  subst heq
  have := blankName_lt_nextIdx a (nextIdx a + i) hs
  omega

/-! ## Claim theorems -/

/-- C1 (counterexample to the claim as stated): with premise set
`F = {frobs}`, no rules, and goal list `[frobs]`, every goal is
derivable from `F` (it is in `saturate(F, R)`), and `prove` succeeds
with the empty proof, but `validate` then returns an empty implied set,
so the goals are *not* contained in the implied set as the claim
requires. -/
theorem roundtrip_goal_in_premises_cex :
    (∀ t ∈ [frobsTriple], t ∈ saturate [frobsTriple] []) ∧
    ¬ (∃ L A I, proveh [frobsTriple] [frobsTriple] [] = .ok L ∧
        validateh [] L = .ok (A, I) ∧ ∀ t ∈ [frobsTriple], t ∈ I) := by
  constructor
  · decide
  · rintro ⟨L, A, I, hp, hv, hI⟩
    have h1 : proveh [frobsTriple] [frobsTriple] [] = .ok [] := by decide
    rw [h1] at hp
    have hL := Except.ok.inj hp
    rw [← hL] at hv
    have h2 : (Except.ok (([], []) : VState) : Except CDError VState) = .ok (A, I) := hv
    have h3 := Except.ok.inj h2
    have hIe : I = [] := ((Prod.mk.injEq _ _ _ _).mp h3).2.symm
    have := hI frobsTriple (List.mem_cons_self _ _)
    rw [hIe] at this
    exact List.not_mem_nil _ this

/-- C1 (amended): for every fact set `F`, rule list `R` and goal list
`g` whose goals are all derivable from `F` under `R` (i.e. in
`saturate(F, R)`), `prove(F, g, R)` succeeds, and
`validate(R, prove(F, g, R))` returns `{assumed, implied}` with
`assumed ⊆ F` and `g ⊆ F ∪ implied` (a goal already among the premises
need not be re-derived, so only `F ∪ implied` — not `implied` alone —
is guaranteed to cover the goals). -/
theorem prove_validate_roundtrip_amended (F : ClaimGraph) (R : List Rule) (g : List Triple)
    (h : ∀ t ∈ g, t ∈ saturate F R) :
    ∃ L A I, proveh F g R = .ok L ∧ validateh R L = .ok (A, I) ∧
      (∀ a ∈ A, a ∈ F) ∧ (∀ t ∈ g, t ∈ F ∨ t ∈ I) :=
  proveLoop_sound F R g (fuelBound F R) F []
    ⟨[], [], rfl, fun a ha => absurd ha (List.not_mem_nil a), fun _ ht => Or.inl ht⟩ h

/-- Witness for C1 (amended) at the sample rules: the `frobs` axiom
head is derivable from empty premises, the prover proves it, the
validator assumes nothing and implies the goal. -/
theorem prove_validate_roundtrip_amended_witness :
    (∀ t ∈ [frobsTriple], t ∈ saturate [] sampleRules) ∧
    (∃ L A I, proveh [] [frobsTriple] sampleRules = .ok L ∧
      validateh sampleRules L = .ok (A, I) ∧ (∀ a ∈ A, a ∈ ([] : ClaimGraph)) ∧
      (∀ t ∈ [frobsTriple], t ∈ ([] : ClaimGraph) ∨ t ∈ I)) :=
  ⟨by decide, prove_validate_roundtrip_amended [] sampleRules [frobsTriple] (by decide)⟩

/-- C2: the validator replays the proof steps in order; its implied set
holds exactly the instantiated head triples of the steps, its assumed
set exactly the instantiated body triples not implied by an earlier
step; in particular `validate(R, []) = {assumed: [], implied: []}` for
every rule list `R`. -/
theorem validateh_replay_semantics :
    (∀ R : List Rule, validateh R [] = .ok ([], [])) ∧
    (∀ (R : List Rule) (proof : List ProofStep) (A I : ClaimGraph),
      validateh R proof = .ok (A, I) →
      (∀ t, t ∈ I ↔ ∃ k s BH, proof.get? k = some s ∧
          stepTriples R s = some BH ∧ t ∈ BH.2) ∧
      (∀ a, a ∈ A ↔ ∃ k s BH, proof.get? k = some s ∧
          stepTriples R s = some BH ∧ a ∈ BH.1 ∧ a ∉ headsUpTo R proof k)) := by
  constructor
  · intro R; rfl
  · intro R proof A I h
    obtain ⟨hI, hA⟩ := validateFrom_char R proof ([], []) (A, I) h
    constructor
    · intro t
      have := hI t
      simpa using this
    · intro a
      have := hA a
      simpa using this

/-- Witness for C2 on the end-to-end proof `[{rule_index: 0,
instantiations: []}]`: the implied set is exactly the axiom head and
the assumed set is empty. -/
theorem validateh_replay_semantics_witness :
    (∀ t, t ∈ ([frobsTriple] : ClaimGraph) ↔
      ∃ k s BH, ([⟨0, []⟩] : List ProofStep).get? k = some s ∧
        stepTriples sampleRules s = some BH ∧ t ∈ BH.2) ∧
    (∀ a, a ∈ ([] : ClaimGraph) ↔
      ∃ k s BH, ([⟨0, []⟩] : List ProofStep).get? k = some s ∧
        stepTriples sampleRules s = some BH ∧ a ∈ BH.1 ∧
        a ∉ headsUpTo sampleRules [⟨0, []⟩] k) :=
  validateh_replay_semantics.2 sampleRules [⟨0, []⟩] [] [frobsTriple] (by decide)

/-- C3: when the validator's assumed set contains triples missing from
the translated claim graph `F`, `check_soundness` fails with
`UnverifiedAssumption` carrying exactly the first such triple, which is
in the assumed set and not in `F`. -/
theorem unverified_assumption_spec (p : Presentation) (R : List Rule)
    (A I : ClaimGraph) (a : Triple)
    (hv : p.verified = true)
    (hval : validateh R (p.logic.getD []) = .ok (A, I))
    (hfind : A.find?
      (fun a => !(cgContains (presentationToEEClaimGraph p.credentials) a)) = some a) :
    checkSoundness p R = .error (.unverifiedAssumption a) ∧
    a ∈ A ∧ a ∉ presentationToEEClaimGraph p.credentials := by
  refine ⟨checkSoundness_unverifiedAssumption p R A I a hv hval hfind,
    List.mem_of_find?_eq_some hfind, ?_⟩
  have := List.find?_some hfind
  simp only [Bool.not_eq_true', Bool.not_eq_false] at this
  intro hmem
  rw [(cgContains_iff _ a).mpr hmem] at this
  cases this

/-- Witness for C3: the joeThePig proof against a presentation that
does not assert joe is a flying pig fails with
`UnverifiedAssumption((joeThePig, Ability, Flight))`. -/
theorem unverified_assumption_spec_witness :
    checkSoundness
        (samplePresentation (some [⟨1, [.iri "http://example.com/joeThePig"]⟩]))
        sampleRules =
      .error (.unverifiedAssumption ⟨.iri "http://example.com/joeThePig",
        .iri "https://example.com/Ability", .iri "https://example.com/Flight"⟩) ∧
    ⟨.iri "http://example.com/joeThePig", .iri "https://example.com/Ability",
      .iri "https://example.com/Flight"⟩ ∈
      ([⟨.iri "http://example.com/joeThePig", .iri "https://example.com/Ability",
          .iri "https://example.com/Flight"⟩,
        ⟨.iri "http://example.com/joeThePig",
          .iri "https://www.w3.org/1999/02/22-rdf-syntax-ns#type",
          .iri "https://example.com/Pig"⟩] : ClaimGraph) ∧
    ⟨.iri "http://example.com/joeThePig", .iri "https://example.com/Ability",
      .iri "https://example.com/Flight"⟩ ∉
      presentationToEEClaimGraph
        (samplePresentation (some [⟨1, [.iri "http://example.com/joeThePig"]⟩])).credentials :=
  unverified_assumption_spec
    (samplePresentation (some [⟨1, [.iri "http://example.com/joeThePig"]⟩]))
    sampleRules
    [⟨.iri "http://example.com/joeThePig", .iri "https://example.com/Ability",
       .iri "https://example.com/Flight"⟩,
     ⟨.iri "http://example.com/joeThePig",
       .iri "https://www.w3.org/1999/02/22-rdf-syntax-ns#type",
       .iri "https://example.com/Pig"⟩]
    [⟨.iri "did:dock:bddap", .iri "http://xmlns.com/foaf/spec/#term_firstName",
       .literal "Gorgadon" "http://www.w3.org/1999/02/22-rdf-syntax-ns#PlainLiteral" none⟩]
    ⟨.iri "http://example.com/joeThePig", .iri "https://example.com/Ability",
      .iri "https://example.com/Flight"⟩
    rfl (by decide) (by decide)

/-- C4: a proof step whose instantiation list length differs from the
number of canonical variables of the referenced rule makes validation
— and, on a verified presentation carrying that proof,
`check_soundness` — fail with `InvalidProof("BadRuleApplication")`. -/
theorem bad_rule_application_spec (R : List Rule) (pre rest : List ProofStep)
    (st : VState) (i : Nat) (r : Rule) (inst : List Term) (p : Presentation)
    (hpre : validateFrom R ([], []) pre = .ok st)
    (hr : R.get? i = some r)
    (hlen : inst.length ≠ (ruleVars r).length)
    (hv : p.verified = true)
    (hlogic : p.logic = some (pre ++ ⟨i, inst⟩ :: rest)) :
    validateh R (pre ++ ⟨i, inst⟩ :: rest) = .error (.invalidProof "BadRuleApplication") ∧
    checkSoundness p R = .error (.invalidProof "BadRuleApplication") := by
  have hstep : validateStep R st ⟨i, inst⟩ = .error (.invalidProof "BadRuleApplication") := by
    unfold validateStep
    rw [hr]
    dsimp only
    rw [if_neg hlen]
  have hval : validateh R (pre ++ ⟨i, inst⟩ :: rest) =
      .error (.invalidProof "BadRuleApplication") := by
    unfold validateh
    rw [validateFrom_append, hpre]
    dsimp only
    simp only [validateFrom]
    rw [hstep]
  refine ⟨hval, checkSoundness_validate_error p R _ hv ?_⟩
  rw [hlogic]
  exact hval

/-- Witness for C4: rule 0 of the sample rules has zero variables, so a
single-instantiation step fails validation and soundness checking. -/
theorem bad_rule_application_spec_witness :
    validateh sampleRules ([] ++ (⟨0, [.iri "http://example.com"]⟩ : ProofStep) :: []) =
      .error (.invalidProof "BadRuleApplication") ∧
    checkSoundness (samplePresentation (some ([] ++ (⟨0, [.iri "http://example.com"]⟩ : ProofStep) :: [])))
        sampleRules = .error (.invalidProof "BadRuleApplication") :=
  bad_rule_application_spec sampleRules [] [] ([], [])
    0 { if_all := []
        then_ :=
          [ { s := .bound (.iri "https://example.com/a")
              p := .bound (.iri "https://example.com/frobs")
              o := .bound (.iri "https://example.com/b") } ] }
    [.iri "http://example.com"]
    (samplePresentation (some [⟨0, [.iri "http://example.com"]⟩]))
    rfl rfl (by decide) rfl rfl

/-- C5: cryptographic verification comes first: whatever credentials
and proof a presentation carries, if the external verifier rejected it
then `check_soundness` fails with `VerificationFailed` wrapping the
suite-level error, before any proof extraction or proof checking. -/
theorem verification_first_spec (p : Presentation) (R : List Rule)
    (h : p.verified = false) :
    checkSoundness p R = .error (.verificationFailed p.verifyError) := by
  unfold checkSoundness
  rw [h]
  exact rfl

/-- Witness for C5: a tampered presentation (the suite reports
"Invalid signature.") fails verification-first even though its attached
proof would also be ill-formed. -/
theorem verification_first_spec_witness :
    checkSoundness
      { verified := false
        verifyError := "Invalid signature."
        credentials := [sampleCredential]
        logic := some [⟨7, [.iri "http://example.com"]⟩] } sampleRules =
    .error (.verificationFailed "Invalid signature.") :=
  verification_first_spec
    { verified := false
      verifyError := "Invalid signature."
      credentials := [sampleCredential]
      logic := some [⟨7, [.iri "http://example.com"]⟩] } sampleRules rfl

/-- The claim graph the end-to-end test expects (claim-deduction
test lines 143–259): the twenty reified credential triples grouped per
asserted claim with sequential blanks, then the implied axiom head. -/
def expectedEndToEnd : ClaimGraph :=
  [ ⟨.iri sampleIssuer, claimsV1, .blank "_:b0"⟩
  , ⟨.blank "_:b0", rdfSubject, .iri "did:example:ebfeb1f712ebc6f1c276e12ec21"⟩
  , ⟨.blank "_:b0", rdfPredicate, .iri "http://schema.org/alumniOf"⟩
  , ⟨.blank "_:b0", rdfObject,
     .literal "Example University" "http://www.w3.org/1999/02/22-rdf-syntax-ns#HTML" none⟩
  , ⟨.iri sampleIssuer, claimsV1, .blank "_:b1"⟩
  , ⟨.blank "_:b1", rdfSubject, .iri "https://example.com/credentials/1872"⟩
  , ⟨.blank "_:b1", rdfPredicate, rdfType⟩
  , ⟨.blank "_:b1", rdfObject, .iri "https://www.w3.org/2018/credentials#VerifiableCredential"⟩
  , ⟨.iri sampleIssuer, claimsV1, .blank "_:b2"⟩
  , ⟨.blank "_:b2", rdfSubject, .iri "https://example.com/credentials/1872"⟩
  , ⟨.blank "_:b2", rdfPredicate, .iri "https://www.w3.org/2018/credentials#credentialSubject"⟩
  , ⟨.blank "_:b2", rdfObject, .iri "did:example:ebfeb1f712ebc6f1c276e12ec21"⟩
  , ⟨.iri sampleIssuer, claimsV1, .blank "_:b3"⟩
  , ⟨.blank "_:b3", rdfSubject, .iri "https://example.com/credentials/1872"⟩
  , ⟨.blank "_:b3", rdfPredicate, .iri "https://www.w3.org/2018/credentials#issuanceDate"⟩
  , ⟨.blank "_:b3", rdfObject,
     .literal "2010-01-01T19:23:24Z" "http://www.w3.org/2001/XMLSchema#dateTime" none⟩
  , ⟨.iri sampleIssuer, claimsV1, .blank "_:b4"⟩
  , ⟨.blank "_:b4", rdfSubject, .iri "https://example.com/credentials/1872"⟩
  , ⟨.blank "_:b4", rdfPredicate, .iri "https://www.w3.org/2018/credentials#issuer"⟩
  , ⟨.blank "_:b4", rdfObject, .iri sampleIssuer⟩
  , frobsTriple ]

/-- C6: explicit-ethos translation — for each credential with issuer
`I`, every asserted triple `(s, p, o)` is emitted as exactly the four
reified triples `(I, claimsV1, b)`, `(b, rdf:subject, s)`,
`(b, rdf:predicate, p)`, `(b, rdf:object, o)` with a distinct blank `b`
per asserted triple, all terms (including literal datatypes such as
`rdf:HTML`) carried over verbatim, and nothing else is emitted. -/
theorem explicit_ethos_translation_spec (issuer : Term) (ts : List Triple) :
    (credEE ⟨issuer, ts⟩).length = 4 * ts.length ∧
    (∀ j t, ts.get? j = some t →
      (⟨issuer, claimsV1, .blank (blankName j)⟩ : Triple) ∈ credEE ⟨issuer, ts⟩ ∧
      (⟨.blank (blankName j), rdfSubject, t.s⟩ : Triple) ∈ credEE ⟨issuer, ts⟩ ∧
      (⟨.blank (blankName j), rdfPredicate, t.p⟩ : Triple) ∈ credEE ⟨issuer, ts⟩ ∧
      (⟨.blank (blankName j), rdfObject, t.o⟩ : Triple) ∈ credEE ⟨issuer, ts⟩) ∧
    (∀ j j' : Nat, j ≠ j' → blankName j ≠ blankName j') ∧
    (∀ u ∈ credEE ⟨issuer, ts⟩, ∃ j t, ts.get? j = some t ∧
      u ∈ reifyTriple (.blank (blankName j)) issuer t) := by
  refine ⟨translateCred_length issuer ts 0, ?_, ?_, ?_⟩
  · intro j t hj
    have h := translateCred_mem issuer ts 0 j t hj
    rw [Nat.zero_add] at h
    exact ⟨h _ (by simp [reifyTriple]), h _ (by simp [reifyTriple]),
      h _ (by simp [reifyTriple]), h _ (by simp [reifyTriple])⟩
  · intro j j' hne heq
    exact hne (blankName_inj j j' heq)
  · intro u hu
    obtain ⟨j, t, hj, hmem⟩ := translateCred_exact issuer ts 0 u hu
    rw [Nat.zero_add] at hmem
    exact ⟨j, t, hj, hmem⟩

/-- Witness for C6 on the sample credential: the first asserted triple
is reified under blank `_:b0` and its `rdf:HTML`-typed literal object
is preserved verbatim. -/
theorem explicit_ethos_translation_spec_witness :
    (⟨.iri sampleIssuer, claimsV1, .blank (blankName 0)⟩ : Triple) ∈
      credEE sampleCredential ∧
    (⟨.blank (blankName 0), rdfObject,
      .literal "Example University" "http://www.w3.org/1999/02/22-rdf-syntax-ns#HTML" none⟩ :
        Triple) ∈ credEE sampleCredential := by
  have h := (explicit_ethos_translation_spec (.iri sampleIssuer) sampleContent).2.1 0
    ⟨.iri "did:example:ebfeb1f712ebc6f1c276e12ec21",
     .iri "http://schema.org/alumniOf",
     .literal "Example University" "http://www.w3.org/1999/02/22-rdf-syntax-ns#HTML" none⟩
    rfl
  exact ⟨h.1, h.2.2.2⟩

/-- C7: monotonicity — a successful `check_soundness` returns exactly
the translated claim graph united with the validator's implied set, so
it contains every triple of the translated presentation. -/
theorem checkSoundness_monotonic_spec (p : Presentation) (R : List Rule) (G : ClaimGraph)
    (h : checkSoundness p R = .ok G) :
    ∃ A I, validateh R (p.logic.getD []) = .ok (A, I) ∧
      G = addAll (presentationToEEClaimGraph p.credentials) I ∧
      (∀ t ∈ presentationToEEClaimGraph p.credentials, t ∈ G) ∧
      (∀ t ∈ G, t ∈ presentationToEEClaimGraph p.credentials ∨ t ∈ I) := by
  obtain ⟨hv, A, I, hval, hAF, hG⟩ := checkSoundness_ok p R G h
  refine ⟨A, I, hval, hG, ?_, ?_⟩
  · intro t ht
    rw [hG]
    exact (mem_addAll _ _ t).mpr (Or.inl ht)
  · intro t ht
    rw [hG] at ht
    exact (mem_addAll _ _ t).mp ht

/-- Witness for C7 on the end-to-end scenario. -/
theorem checkSoundness_monotonic_spec_witness :
    ∃ A I, validateh sampleRules
        ((samplePresentation (some [⟨0, []⟩])).logic.getD []) = .ok (A, I) ∧
      expectedEndToEnd = addAll
        (presentationToEEClaimGraph (samplePresentation (some [⟨0, []⟩])).credentials) I ∧
      (∀ t ∈ presentationToEEClaimGraph (samplePresentation (some [⟨0, []⟩])).credentials,
        t ∈ expectedEndToEnd) ∧
      (∀ t ∈ expectedEndToEnd,
        t ∈ presentationToEEClaimGraph (samplePresentation (some [⟨0, []⟩])).credentials ∨
        t ∈ I) :=
  checkSoundness_monotonic_spec (samplePresentation (some [⟨0, []⟩])) sampleRules
    expectedEndToEnd (by decide)

/-- C8: blank-node locality — `cg_union` renames the blanks of its
right argument to fresh labels before uniting, so the blank labels of
the two sides never collide; in particular the translated subgraphs of
any two credentials of a presentation have disjoint blank-node sets
after merging. -/
theorem blank_node_locality_spec :
    (∀ a b : ClaimGraph, cgUnion a b = a ++ renamedPart a b) ∧
    (∀ (a b : ClaimGraph) (s s' : String), s ∈ cgBlanks a →
      s' ∈ cgBlanks (renamedPart a b) → s ≠ s') ∧
    (∀ c1 c2 : Credential,
      presentationToEEClaimGraph [c1, c2] =
        cgUnion (cgUnion [] (credEE c1)) (credEE c2) ∧
      ∀ s s', s ∈ cgBlanks (cgUnion [] (credEE c1)) →
        s' ∈ cgBlanks (renamedPart (cgUnion [] (credEE c1)) (credEE c2)) → s ≠ s') := by
  refine ⟨fun a b => rfl, cgUnion_blank_disjoint, ?_⟩
  intro c1 c2
  exact ⟨rfl, fun s s' hs hs' => cgUnion_blank_disjoint _ _ s s' hs hs'⟩

/-- Witness for C8 on the two licensing-chain credentials: the first
credential's subgraph uses `_:b0`, the second's (after the fresh
renaming of the union) uses `_:b1`, and they never collide. -/
theorem blank_node_locality_spec_witness :
    presentationToEEClaimGraph [joeCanFly, joeIsAPig] =
      cgUnion (cgUnion [] (credEE joeCanFly)) (credEE joeIsAPig) ∧
    ("_:b0" : String) ≠ "_:b1" :=
  ⟨(blank_node_locality_spec.2.2 joeCanFly joeIsAPig).1,
   (blank_node_locality_spec.2.2 joeCanFly joeIsAPig).2 "_:b0" "_:b1"
     (by decide) (by decide)⟩

/-- C9: output ordering — a successful `check_soundness` returns the
translated credential triples first (per asserted claim, in the fixed
order claimsV1, rdf:subject, rdf:predicate, rdf:object, with
sequentially numbered `_:b<n>` blanks), and the validated implied
triples appended after all credential triples. -/
theorem output_ordering_spec (p : Presentation) (R : List Rule) (G : ClaimGraph)
    (h : checkSoundness p R = .ok G) :
    (∃ A I ext, validateh R (p.logic.getD []) = .ok (A, I) ∧
      G = presentationToEEClaimGraph p.credentials ++ ext ∧ ∀ t ∈ ext, t ∈ I) ∧
    (∀ (issuer sub pr ob : Term) (n : Nat) (ts : List Triple),
      translateCred issuer n (⟨sub, pr, ob⟩ :: ts) =
        ⟨issuer, claimsV1, .blank (blankName n)⟩ ::
        ⟨.blank (blankName n), rdfSubject, sub⟩ ::
        ⟨.blank (blankName n), rdfPredicate, pr⟩ ::
        ⟨.blank (blankName n), rdfObject, ob⟩ :: translateCred issuer (n + 1) ts) := by
  constructor
  · obtain ⟨hv, A, I, hval, hAF, hG⟩ := checkSoundness_ok p R G h
    obtain ⟨ext, hext, hin⟩ := addAll_shape (presentationToEEClaimGraph p.credentials) I
    exact ⟨A, I, ext, hval, by rw [hG, hext], hin⟩
  · intro issuer sub pr ob n ts
    rfl

/-- Witness for C9: the end-to-end scenario returns exactly the
expected ordered claim graph — twenty credential triples with blanks
`_:b0` … `_:b4`, then the implied axiom head. -/
theorem output_ordering_spec_witness :
    checkSoundness (samplePresentation (some [⟨0, []⟩])) sampleRules =
      .ok expectedEndToEnd ∧
    (∃ A I ext, validateh sampleRules
        ((samplePresentation (some [⟨0, []⟩])).logic.getD []) = .ok (A, I) ∧
      expectedEndToEnd =
        presentationToEEClaimGraph (samplePresentation (some [⟨0, []⟩])).credentials ++ ext ∧
      ∀ t ∈ ext, t ∈ I) :=
  ⟨by decide,
   (output_ordering_spec (samplePresentation (some [⟨0, []⟩])) sampleRules
     expectedEndToEnd (by decide)).1⟩

end ClaimDeduction

namespace DockDID

/-- C10: `getHexIdentifierFromDID` either throws (an `Invalid SS58
DID …` error for inputs starting with `did:dock:`, an `Invalid
hexadecimal DID …` error otherwise) or returns a `0x`-prefixed
hexadecimal string encoding exactly 32 bytes; a successful output fed
back in is returned unchanged, so the function is idempotent on its
successful outputs. -/
theorem getHexIdentifierFromDID_spec :
    (∀ (decode : String → Option (List Nat)) (did s : String),
      getHexIdentifierFromDID decode did = .ok s →
      isHexWithGivenByteSize s DockDIDByteSize = true) ∧
    (∀ (decode : String → Option (List Nat)) (did e : String),
      getHexIdentifierFromDID decode did = .error e →
      (strStarts did DockDIDQualifier = true → strStarts e "Invalid SS58 DID " = true) ∧
      (strStarts did DockDIDQualifier = false →
        strStarts e "Invalid hexadecimal DID " = true)) ∧
    (∀ (decode decode' : String → Option (List Nat)) (did s : String),
      getHexIdentifierFromDID decode did = .ok s →
      getHexIdentifierFromDID decode' s = .ok s) :=
  ⟨getHex_ok_isHex, getHex_error_msgs, getHex_idem⟩

/-- Witness for C10: decoding a `did:dock:` DID whose SS58 part decodes
to 32 zero bytes yields the 32-byte zero hex identifier, which is a
fixed point; a non-hex non-qualified input reports an
`Invalid hexadecimal DID` error. -/
theorem getHexIdentifierFromDID_spec_witness :
    isHexWithGivenByteSize
      "0x0000000000000000000000000000000000000000000000000000000000000000"
      DockDIDByteSize = true ∧
    getHexIdentifierFromDID (fun _ => none)
      "0x0000000000000000000000000000000000000000000000000000000000000000" =
      .ok "0x0000000000000000000000000000000000000000000000000000000000000000" ∧
    strStarts "Invalid hexadecimal DID zz. Error: DID identifier must be 32 bytes"
      "Invalid hexadecimal DID " = true :=
  ⟨getHexIdentifierFromDID_spec.1 (fun _ => some (List.replicate 32 0)) "did:dock:x"
     "0x0000000000000000000000000000000000000000000000000000000000000000" (by decide),
   getHexIdentifierFromDID_spec.2.2 (fun _ => some (List.replicate 32 0)) (fun _ => none)
     "did:dock:x"
     "0x0000000000000000000000000000000000000000000000000000000000000000" (by decide),
   (getHexIdentifierFromDID_spec.2.1 (fun _ => none) "zz"
     "Invalid hexadecimal DID zz. Error: DID identifier must be 32 bytes" (by decide)).2
     (by decide)⟩

end DockDID
